import Mathlib

/-
Verification of the per-user scheduler (`user_main` in src/user.rs) of the
goose load-testing engine.  The scheduler is embedded shallowly: the opaque
async task bodies are replaced by an event trace recording each invocation
(task index together with the `task_request_name` in force at the moment of
invocation), the rng is a stream of naturals, and the command channel is a
stream of message batches indexed by the drain counter.
-/

set_option maxRecDepth 4000

namespace Goose

/-- One task of a task set as `user_main` sees it: the scheduler reads only the
display name; the async function body is opaque and is modelled by the event
trace of its invocations. -/
structure GooseTask where
  name : String
deriving DecidableEq

/-- Modelled from the spec: the task-set struct lives outside src/; `user_main`
reads its name and indexes into its dense task list. -/
structure GooseTaskSet where
  name : String
  tasks : List GooseTask
deriving DecidableEq

/-- Modelled from the spec: commands on the per-user channel form a closed
enumeration; `user_main` reacts only to EXIT and ignores every other tag,
so the other tags are modelled by a numbered constructor. -/
inductive GooseUserCommand where
  | EXIT
  | other (tag : Nat)
deriving DecidableEq

/-- Modelled from the spec: the per-user runtime state read and written by
`user_main` (the struct itself lives outside src/).  The two shared atomics
are modelled as plain fields that `user_main` loads and stores. -/
structure GooseUser where
  weighted_on_start_tasks : List (List Nat)
  weighted_tasks : List (List Nat)
  weighted_on_stop_tasks : List (List Nat)
  weighted_bucket : Nat
  weighted_bucket_position : Nat
  task_request_name : Option String
  min_wait : Nat
  max_wait : Nat
deriving DecidableEq

/-- Randomness source: a stream of naturals indexed by a cursor. -/
abbrev Rng := Nat → Nat

/-- Command channel: the batch of messages available at the k-th drain. -/
abbrev Channel := Nat → List GooseUserCommand

/-- Swap the elements of a list at positions i and j (helper for the shuffle
model); out-of-range positions leave the list unchanged. -/
def listSwap {α : Type} (l : List α) (i j : Nat) : List α :=
  match l[i]?, l[j]? with
  | some a, some b => (l.set i b).set j a
  | _, _ => l

/-- Fisher-Yates pass over positions i, i-1, ..., 1, drawing from the rng
stream; models the external rand crate's SliceRandom shuffle.  Returns the
shuffled list and the advanced rng cursor. -/
def shuffleFrom {α : Type} (rng : Rng) : List α → Nat → Nat → List α × Nat
  | l, pos, 0 => (l, pos)
  | l, pos, i + 1 => shuffleFrom rng (listSwap l (i + 1) (rng pos % (i + 2))) (pos + 1) i

/-- Shuffle a list in place, rand style: lists of length ≤ 1 draw nothing. -/
def shuffle {α : Type} (rng : Rng) (l : List α) (pos : Nat) : List α × Nat :=
  match l.length with
  | 0 => (l, pos)
  | n + 1 => shuffleFrom rng l pos n

/-- Models the external rand crate's gen_range(low, high): one draw r of the
rng stream mapped into the half-open range [low, high). -/
def gen_range (r low high : Nat) : Nat :=
  low + r % (high - low)

/-- Drain loop of user.rs lines 116-128: each received EXIT clears
thread_continue; every other command is logged and ignored. -/
def processMessages : Bool → List GooseUserCommand → Bool
  | tc, [] => tc
  | _, GooseUserCommand.EXIT :: rest => processMessages false rest
  | tc, GooseUserCommand.other _ :: rest => processMessages tc rest

/-- Observable events of one `user_main` run.  Task invocations record the
task index and the `task_request_name` in force at the moment the task
function is invoked; steady invocations also record the bucket index used. -/
inductive Event where
  | onStart (idx : Nat) (req : Option String)
  | steady (bucket idx : Nat) (req : Option String)
  | shuffled (bucket : Nat)
  | drain
  | sleep
  | onStop (idx : Nat) (req : Option String)
deriving DecidableEq

/-- Cooperative wait loop of user.rs lines 110-143: drain the channel, then,
while the user continues and max_wait is positive, sleep a 1-second slice and
stop once `slept` exceeds `wait_time`.  `fuel` is a structural bound on the
remaining iterations; the entry point passes `fuel = wait_time`, which the
loop never exhausts because it stops as soon as slept exceeds wait_time.
Returns (events, thread_continue, drain cursor). -/
def sleepLoop (channel : Channel) (max_wait wait_time : Nat) :
    Nat → Bool → Nat → Nat → List Event × Bool × Nat
  | 0, tc, _, dp =>
    let tc1 := processMessages tc (channel dp)
    if tc1 = true ∧ 0 < max_wait then ([Event.drain, Event.sleep], tc1, dp + 1)
    else ([Event.drain], tc1, dp + 1)
  | fuel + 1, tc, slept, dp =>
    let tc1 := processMessages tc (channel dp)
    if tc1 = true ∧ 0 < max_wait then
      if wait_time < slept + 1 then ([Event.drain, Event.sleep], tc1, dp + 1)
      else
        let r := sleepLoop channel max_wait wait_time fuel tc1 (slept + 1) (dp + 1)
        (Event.drain :: Event.sleep :: r.1, r.2)
    else ([Event.drain], tc1, dp + 1)

/-- The wait of user.rs lines 109-143 started with `slept = 0`: the loop stops
with the slice that takes `slept` past `wait_time`, so `wait_time` itself is a
sufficient fuel bound (the invariant `fuel + slept = wait_time` holds at every
recursive call, and at fuel 0 the loop provably takes its final slice). -/
def sleepLoopRun (channel : Channel) (max_wait wait_time : Nat) (tc : Bool) (dp : Nat) :
    List Event × Bool × Nat :=
  sleepLoop channel max_wait wait_time wait_time tc 0 dp

/-- Bucket-advance branch of user.rs lines 66-84: reset the local position and
store it to the position atomic; advance the local bucket index, wrapping to 0
past the last bucket; store the RESET POSITION into the `weighted_bucket`
atomic (the mis-store at line 78 stores `weighted_bucket_position`); finally
shuffle the newly entered bucket in place.
Returns (user, new local bucket, new local position, rng cursor). -/
def advanceBucket (rng : Rng) (u : GooseUser) (bucket rp : Nat) :
    GooseUser × Nat × Nat × Nat :=
  let pos := 0
  let u1 : GooseUser := { u with weighted_bucket_position := pos }
  let b1 := bucket + 1
  let b2 := if u1.weighted_tasks.length ≤ b1 then 0 else b1
  let u2 : GooseUser := { u1 with weighted_bucket := pos }
  let s := shuffle rng (u2.weighted_tasks.getD b2 []) rp
  let u3 : GooseUser := { u2 with weighted_tasks := u2.weighted_tasks.set b2 s.1 }
  (u3, b2, pos, s.2)

/-- Local state of the steady loop of `user_main`: the user (including its
atomics), the local variables thread_continue / weighted_bucket /
weighted_bucket_position, and the cursors into the rng stream and the command
channel. -/
structure LoopSt where
  user : GooseUser
  thread_continue : Bool
  bucket : Nat
  pos : Nat
  rp : Nat
  dp : Nat
deriving DecidableEq

/-- Display name of the task at a given index of the set (empty when the
index is out of range, a case rust would answer with a panic). -/
def taskNameOf (ts : GooseTaskSet) (idx : Nat) : String :=
  (ts.tasks.getD idx { name := "" }).name

/-- Wait computation of user.rs lines 103-108: a uniform draw from
[min_wait, max_wait) through the rng value r when max_wait is positive,
0 otherwise. -/
def waitDraw (u : GooseUser) (r : Nat) : Nat :=
  if 0 < u.max_wait then gen_range r u.min_wait u.max_wait else 0

/-- Exhaustion check of user.rs lines 65-85: when the current bucket is
exhausted run the advance branch (emitting the shuffle of the bucket entered),
otherwise keep the current coordinates.
Returns (events, user, local bucket, local position, rng cursor). -/
def stepSelect (rng : Rng) (st : LoopSt) : List Event × GooseUser × Nat × Nat × Nat :=
  if (st.user.weighted_tasks.getD st.bucket []).length ≤ st.pos then
    let r := advanceBucket rng st.user st.bucket st.rp
    ([Event.shuffled r.2.1], r.1, r.2.1, r.2.2.1, r.2.2.2)
  else ([], st.user, st.bucket, st.pos, st.rp)

/-- One iteration of the while loop of user.rs lines 63-150, entered with
thread_continue true: advance the bucket when the current one is exhausted,
pick the task at the local (bucket, position), overwrite task_request_name
when the task has a non-empty name, invoke the task (emit its event), draw the
wait, run the cooperative wait, then advance the local position and store it
to the position atomic. -/
def steadyStep (ts : GooseTaskSet) (rng : Rng) (channel : Channel) (st : LoopSt) :
    List Event × LoopSt :=
  let a := stepSelect rng st
  let evs0 := a.1
  let u := a.2.1
  let bk := a.2.2.1
  let p := a.2.2.2.1
  let rp := a.2.2.2.2
  let idx := (u.weighted_tasks.getD bk []).getD p 0
  let nm := taskNameOf ts idx
  let u1 : GooseUser := if nm = "" then u else { u with task_request_name := some nm }
  let wait_time := waitDraw u1 (rng rp)
  let rp1 := if 0 < u1.max_wait then rp + 1 else rp
  let w := sleepLoopRun channel u1.max_wait wait_time st.thread_continue st.dp
  let p1 := p + 1
  let u2 : GooseUser := { u1 with weighted_bucket_position := p1 }
  (evs0 ++ Event.steady bk idx u1.task_request_name :: w.1,
   { user := u2, thread_continue := w.2.1, bucket := bk, pos := p1, rp := rp1, dp := w.2.2 })

/-- The while loop of user.rs lines 63-150.  `fuel` bounds the number of
iterations; `none` models a run that is still going (no EXIT arrived within
fuel iterations), so every `some` result is a completed execution. -/
def steadyLoop (ts : GooseTaskSet) (rng : Rng) (channel : Channel) :
    Nat → LoopSt → Option (List Event × LoopSt)
  | 0, st => if st.thread_continue then none else some ([], st)
  | fuel + 1, st =>
    if st.thread_continue then
      let s := steadyStep ts rng channel st
      match steadyLoop ts rng channel fuel s.2 with
      | none => none
      | some r => some (s.1 ++ r.1, r.2)
    else some ([], st)

/-- Inner loop of the on-start / on-stop hooks (user.rs lines 38-51 and
158-171): walk one (already shuffled) sequence, overwriting
task_request_name for named tasks and emitting one event per invocation. -/
def runSeqTasks (ts : GooseTaskSet) (mk : Nat → Option String → Event) :
    List Nat → GooseUser → List Event × GooseUser
  | [], u => ([], u)
  | i :: rest, u =>
    let nm := taskNameOf ts i
    let u1 : GooseUser := if nm = "" then u else { u with task_request_name := some nm }
    let r := runSeqTasks ts mk rest u1
    (mk i u1.task_request_name :: r.1, r.2)

/-- On-start / on-stop hook runner of user.rs lines 33-53 and 152-173: for
each bucket of the (cloned) plan, shuffle it when it has more than one entry,
then run its tasks in order.  Returns (events, user, rng cursor). -/
def runHookTasks (ts : GooseTaskSet) (rng : Rng) (mk : Nat → Option String → Event) :
    List (List Nat) → GooseUser → Nat → List Event × GooseUser × Nat
  | [], u, rp => ([], u, rp)
  | seq :: rest, u, rp =>
    let s := if 1 < seq.length then shuffle rng seq rp else (seq, rp)
    let r1 := runSeqTasks ts mk s.1 u
    let r2 := runHookTasks ts rng mk rest r1.2 s.2
    (r1.1 ++ r2.1, r2.2)

/-- Initial steady-loop state of user.rs lines 56-62: thread_continue starts
true, the local bucket and position are loaded from the user's atomics, and an
empty steady plan clears thread_continue before the loop (the edge case of a
load test with no normal tasks). -/
def initSt (u : GooseUser) (rp : Nat) : LoopSt :=
  { user := u
    thread_continue := !u.weighted_tasks.isEmpty
    bucket := u.weighted_bucket
    pos := u.weighted_bucket_position
    rp := rp
    dp := 0 }

/-- `user_main` of user.rs lines 11-189: run the on-start hooks, the steady
loop, then the on-stop hooks.  Logging is dropped; every task invocation
appears as an event.  A `some` result is a completed execution. -/
def user_main (ts : GooseTaskSet) (rng : Rng) (channel : Channel) (u : GooseUser)
    (fuel : Nat) : Option (List Event × LoopSt) :=
  let h1 := runHookTasks ts rng Event.onStart u.weighted_on_start_tasks u 0
  match steadyLoop ts rng channel fuel (initSt h1.2.1 h1.2.2) with
  | none => none
  | some r =>
    let h2 := runHookTasks ts rng Event.onStop r.2.user.weighted_on_stop_tasks r.2.user r.2.rp
    some (h1.1 ++ r.1 ++ h2.1, { r.2 with user := h2.2.1, rp := h2.2.2 })

/-- Every task index of a plan addresses a task of the set (rust's vector
indexing would panic otherwise, a case the getD totalisation cannot show). -/
def planOk (ts : GooseTaskSet) (plan : List (List Nat)) : Bool :=
  plan.all fun b => b.all fun i => decide (i < ts.tasks.length)

/-- Valid input for `user_main`: all plan indices in range and no empty steady
bucket, so no rust indexing panic can occur. -/
def userOk (ts : GooseTaskSet) (u : GooseUser) : Bool :=
  planOk ts u.weighted_on_start_tasks && planOk ts u.weighted_tasks &&
    planOk ts u.weighted_on_stop_tasks && u.weighted_tasks.all fun b => !b.isEmpty

/-- Recognise an on-start invocation event. -/
def isOnStartEv : Event → Bool
  | Event.onStart _ _ => true
  | _ => false

/-- Recognise a steady invocation event. -/
def isSteadyEv : Event → Bool
  | Event.steady _ _ _ => true
  | _ => false

/-- Recognise an on-stop invocation event. -/
def isOnStopEv : Event → Bool
  | Event.onStop _ _ => true
  | _ => false

/-- Task index of an on-start invocation event. -/
def onStartIdx : Event → Option Nat
  | Event.onStart i _ => some i
  | _ => none

/-- Task index of an on-stop invocation event. -/
def onStopIdx : Event → Option Nat
  | Event.onStop i _ => some i
  | _ => none

/-- Scan of a trace checking that no two steady invocations are adjacent in
its steady/drain subsequence, i.e. that at least one channel drain separates
any two consecutive steady invocations; the flag remembers whether the last
steady/drain event seen was a steady invocation. -/
def noAdjSteady : Bool → List Event → Bool
  | _, [] => true
  | flag, Event.steady _ _ _ :: rest => !flag && noAdjSteady true rest
  | _, Event.drain :: rest => noAdjSteady false rest
  | flag, _ :: rest => noAdjSteady flag rest

/-- Flag value of `noAdjSteady` after scanning a trace. -/
def steadyFlag : Bool → List Event → Bool
  | flag, [] => flag
  | _, Event.steady _ _ _ :: rest => steadyFlag true rest
  | _, Event.drain :: rest => steadyFlag false rest
  | flag, _ :: rest => steadyFlag flag rest

/-- Scan of a trace checking that every steady invocation comes from a bucket
already shuffled earlier in the trace (the literal reading of the claim that
every bucket is shuffled on entry, including the initial one). -/
def shuffledBefore (seen : List Nat) : List Event → Bool
  | [] => true
  | Event.steady b _ _ :: rest => decide (b ∈ seen) && shuffledBefore seen rest
  | Event.shuffled b :: rest => shuffledBefore (b :: seen) rest
  | _ :: rest => shuffledBefore seen rest

/-- Scan of a trace checking that every steady invocation comes from a bucket
already shuffled earlier in the trace, except that before any shuffle has
happened invocations from the initial bucket b0 (entered in its stored order)
are allowed. -/
def shuffleDiscipline (b0 : Nat) (seen : List Nat) : List Event → Bool
  | [] => true
  | Event.steady b _ _ :: rest =>
    (decide (b ∈ seen) || (seen.isEmpty && b == b0)) && shuffleDiscipline b0 seen rest
  | Event.shuffled b :: rest => shuffleDiscipline b0 (b :: seen) rest
  | _ :: rest => shuffleDiscipline b0 seen rest

/-- Buckets recorded as shuffled after scanning a trace. -/
def seenAfter (seen : List Nat) : List Event → List Nat
  | [] => seen
  | Event.shuffled b :: rest => seenAfter (b :: seen) rest
  | _ :: rest => seenAfter seen rest

/-- All fields of a user except task_request_name, for preservation lemmas. -/
def coreOf (u : GooseUser) :
    List (List Nat) × List (List Nat) × List (List Nat) × Nat × Nat × Nat × Nat :=
  (u.weighted_on_start_tasks, u.weighted_tasks, u.weighted_on_stop_tasks,
   u.weighted_bucket, u.weighted_bucket_position, u.min_wait, u.max_wait)

/-- The fields of a user the steady loop never writes. -/
def hooksOf (u : GooseUser) : List (List Nat) × List (List Nat) × Nat × Nat :=
  (u.weighted_on_start_tasks, u.weighted_on_stop_tasks, u.min_wait, u.max_wait)

theorem listSwap_perm {α : Type} [DecidableEq α] (l : List α) (i j : Nat) :
    (listSwap l i j).Perm l := by
  unfold listSwap
  cases hi : l[i]? with
  | none => exact List.Perm.refl _
  | some a =>
    cases hj : l[j]? with
    | none => exact List.Perm.refl _
    | some b =>
      obtain ⟨hil, hia⟩ := List.getElem?_eq_some.mp hi
      obtain ⟨hjl, hjb⟩ := List.getElem?_eq_some.mp hj
      rw [List.perm_iff_count]
      intro x
      have hjl2 : j < (l.set i b).length := by simpa using hjl
      rw [List.count_set a x _ j hjl2, List.count_set b x l i hil]
      have e1 : (l.set i b)[j] = b := by
        rw [List.getElem_set]
        split
        · rfl
        · exact hjb
      rw [e1, ← hia]
      have hp : (if (l[i] == x) = true then 1 else 0) ≤ l.count x := by
        split
        · next hbe => exact List.count_pos_iff.mpr ((beq_iff_eq.mp hbe) ▸ List.getElem_mem hil)
        · exact Nat.zero_le _
      omega

theorem shuffleFrom_perm {α : Type} [DecidableEq α] (rng : Rng) :
    ∀ (n : Nat) (l : List α) (pos : Nat), ((shuffleFrom rng l pos n).1).Perm l := by
  intro n
  induction n with
  | zero => intro l pos; exact List.Perm.refl _
  | succ i ih =>
    intro l pos
    exact (ih _ (pos + 1)).trans (listSwap_perm l (i + 1) (rng pos % (i + 2)))

theorem shuffle_perm {α : Type} [DecidableEq α] (rng : Rng) (l : List α) (pos : Nat) :
    ((shuffle rng l pos).1).Perm l := by
  unfold shuffle
  cases h : l.length with
  | zero => exact List.Perm.refl _
  | succ n => exact shuffleFrom_perm rng n l pos

theorem shuffle_count {α : Type} [DecidableEq α] (rng : Rng) (l : List α) (pos : Nat)
    (x : α) : ((shuffle rng l pos).1).count x = l.count x :=
  (shuffle_perm rng l pos).count_eq x

theorem shuffle_mem {α : Type} [DecidableEq α] (rng : Rng) (l : List α) (pos : Nat)
    (x : α) : x ∈ (shuffle rng l pos).1 ↔ x ∈ l :=
  (shuffle_perm rng l pos).mem_iff

theorem shuffle_length {α : Type} [DecidableEq α] (rng : Rng) (l : List α) (pos : Nat) :
    ((shuffle rng l pos).1).length = l.length :=
  (shuffle_perm rng l pos).length_eq

theorem processMessages_false (ms : List GooseUserCommand) :
    processMessages false ms = false := by
  induction ms with
  | nil => rfl
  | cons m rest ih => cases m <;> simpa [processMessages] using ih

theorem processMessages_exit (tc : Bool) (ms : List GooseUserCommand)
    (h : GooseUserCommand.EXIT ∈ ms) : processMessages tc ms = false := by
  induction ms generalizing tc with
  | nil => cases h
  | cons m rest ih =>
    cases m with
    | EXIT => simpa [processMessages] using processMessages_false rest
    | other t =>
      have hm : GooseUserCommand.EXIT ∈ rest := by
        rcases List.mem_cons.mp h with h1 | h1
        · cases h1
        · exact h1
      simpa [processMessages] using ih tc hm

theorem processMessages_no_exit (tc : Bool) (ms : List GooseUserCommand)
    (h : GooseUserCommand.EXIT ∉ ms) : processMessages tc ms = tc := by
  induction ms generalizing tc with
  | nil => rfl
  | cons m rest ih =>
    cases m with
    | EXIT => exact absurd (List.mem_cons_self _ _) h
    | other t =>
      simpa [processMessages] using ih tc (fun hm => h (List.mem_cons_of_mem _ hm))

/-- Recognise a wait event (drain or sleep slice). -/
def isWaitEv : Event → Bool
  | Event.drain => true
  | Event.sleep => true
  | _ => false

theorem sleepLoop_all_wait (ch : Channel) (mw wt : Nat) :
    ∀ (fuel : Nat) (tc : Bool) (slept dp : Nat),
      ((sleepLoop ch mw wt fuel tc slept dp).1).all isWaitEv = true := by
  intro fuel
  induction fuel with
  | zero =>
    intro tc slept dp
    simp only [sleepLoop]
    split <;> rfl
  | succ f ih =>
    intro tc slept dp
    simp only [sleepLoop]
    split
    · split
      · rfl
      · simpa [isWaitEv] using ih (processMessages tc (ch dp)) (slept + 1) (dp + 1)
    · rfl

theorem sleepLoop_head (ch : Channel) (mw wt : Nat) (fuel : Nat) (tc : Bool)
    (slept dp : Nat) :
    ∃ rest, (sleepLoop ch mw wt fuel tc slept dp).1 = Event.drain :: rest := by
  cases fuel <;> simp only [sleepLoop] <;> split
  · exact ⟨[Event.sleep], rfl⟩
  · exact ⟨[], rfl⟩
  · split
    · exact ⟨[Event.sleep], rfl⟩
    · exact ⟨_, rfl⟩
  · exact ⟨[], rfl⟩

theorem sleepLoop_exit (ch : Channel) (mw wt fuel : Nat) (tc : Bool) (slept dp : Nat)
    (h : GooseUserCommand.EXIT ∈ ch dp) :
    sleepLoop ch mw wt fuel tc slept dp = ([Event.drain], false, dp + 1) := by
  cases fuel <;> simp [sleepLoop, processMessages_exit _ _ h]

theorem sleepLoop_count (ch : Channel) (mw wt : Nat) (hmw : 0 < mw) :
    ∀ (fuel slept dp : Nat), fuel + slept = wt →
      (∀ d, dp ≤ d → d ≤ dp + fuel → GooseUserCommand.EXIT ∉ ch d) →
      (sleepLoop ch mw wt fuel true slept dp).1.count Event.sleep = fuel + 1 ∧
        (sleepLoop ch mw wt fuel true slept dp).2.1 = true ∧
        (sleepLoop ch mw wt fuel true slept dp).2.2 = dp + fuel + 1 := by
  intro fuel
  induction fuel with
  | zero =>
    intro slept dp hinv hch
    have h0 : GooseUserCommand.EXIT ∉ ch dp := hch dp le_rfl (by omega)
    simp [sleepLoop, processMessages_no_exit _ _ h0, hmw, List.count_cons]
  | succ f ih =>
    intro slept dp hinv hch
    have h0 : GooseUserCommand.EXIT ∉ ch dp := hch dp le_rfl (by omega)
    have hlt : ¬ wt < slept + 1 := by omega
    have ihr := ih (slept + 1) (dp + 1) (by omega)
      (fun d h1 h2 => hch d (by omega) (by omega))
    simp only [sleepLoop, processMessages_no_exit _ _ h0, hmw, hlt, and_true,
      if_true, if_false, if_neg hlt]
    refine ⟨?_, ihr.2.1, ?_⟩
    · simp only [List.count_cons, ihr.1]
      simp
    · rw [ihr.2.2]
      omega

theorem sleepLoop_congr (c1 c2 : Channel)
    (h : ∀ d, GooseUserCommand.EXIT ∈ c1 d ↔ GooseUserCommand.EXIT ∈ c2 d) (mw wt : Nat) :
    ∀ (fuel : Nat) (tc : Bool) (slept dp : Nat),
      sleepLoop c1 mw wt fuel tc slept dp = sleepLoop c2 mw wt fuel tc slept dp := by
  have hp : ∀ (tc : Bool) (d : Nat), processMessages tc (c1 d) = processMessages tc (c2 d) := by
    intro tc d
    by_cases hx : GooseUserCommand.EXIT ∈ c1 d
    · rw [processMessages_exit _ _ hx, processMessages_exit _ _ ((h d).mp hx)]
    · rw [processMessages_no_exit _ _ hx,
        processMessages_no_exit _ _ (fun hm => hx ((h d).mpr hm))]
  intro fuel
  induction fuel with
  | zero => intro tc slept dp; simp only [sleepLoop, hp]
  | succ f ih => intro tc slept dp; simp only [sleepLoop, hp, ih]

theorem waitEvents_nas (l : List Event) (hl : l.all isWaitEv = true) :
    noAdjSteady false l = true ∧ steadyFlag false l = false := by
  induction l with
  | nil => exact ⟨rfl, rfl⟩
  | cons e rest ih =>
    have he : isWaitEv e = true := (List.all_eq_true.mp hl e (List.mem_cons_self _ _))
    have hr : rest.all isWaitEv = true :=
      List.all_eq_true.mpr fun x hx => List.all_eq_true.mp hl x (List.mem_cons_of_mem _ hx)
    cases e <;> simp_all [isWaitEv, noAdjSteady, steadyFlag]

theorem waitEvents_sd (b0 : Nat) (l : List Event) (hl : l.all isWaitEv = true) :
    ∀ seen, shuffleDiscipline b0 seen l = true ∧ seenAfter seen l = seen := by
  induction l with
  | nil => intro seen; exact ⟨rfl, rfl⟩
  | cons e rest ih =>
    intro seen
    have he : isWaitEv e = true := (List.all_eq_true.mp hl e (List.mem_cons_self _ _))
    have hr : rest.all isWaitEv = true :=
      List.all_eq_true.mpr fun x hx => List.all_eq_true.mp hl x (List.mem_cons_of_mem _ hx)
    cases e <;> simp_all [isWaitEv, shuffleDiscipline, seenAfter]

theorem noAdjSteady_append (l1 l2 : List Event) :
    ∀ b, noAdjSteady b (l1 ++ l2) =
      (noAdjSteady b l1 && noAdjSteady (steadyFlag b l1) l2) := by
  induction l1 with
  | nil => intro b; simp [noAdjSteady, steadyFlag]
  | cons e rest ih =>
    intro b
    cases e <;> simp [noAdjSteady, steadyFlag, ih, Bool.and_assoc]

theorem steadyFlag_append (l1 l2 : List Event) :
    ∀ b, steadyFlag b (l1 ++ l2) = steadyFlag (steadyFlag b l1) l2 := by
  induction l1 with
  | nil => intro b; simp [steadyFlag]
  | cons e rest ih => intro b; cases e <;> simp [steadyFlag, ih]

theorem shuffleDiscipline_append (b0 : Nat) (l1 l2 : List Event) :
    ∀ seen, shuffleDiscipline b0 seen (l1 ++ l2) =
      (shuffleDiscipline b0 seen l1 && shuffleDiscipline b0 (seenAfter seen l1) l2) := by
  induction l1 with
  | nil => intro seen; simp [shuffleDiscipline, seenAfter]
  | cons e rest ih =>
    intro seen
    cases e <;> simp [shuffleDiscipline, seenAfter, ih, Bool.and_assoc]

/-- Recognise an event of the steady loop (not a hook invocation). -/
def isLoopEv (e : Event) : Bool := !isOnStartEv e && !isOnStopEv e

theorem advanceBucket_hooks (rng : Rng) (u : GooseUser) (bucket rp : Nat) :
    hooksOf (advanceBucket rng u bucket rp).1 = hooksOf u := by
  unfold advanceBucket hooksOf
  rfl

theorem steadyLoop_stop (ts : GooseTaskSet) (rng : Rng) (ch : Channel) (fuel : Nat)
    (st : LoopSt) (h : st.thread_continue = false) :
    steadyLoop ts rng ch fuel st = some ([], st) := by
  cases fuel <;> simp [steadyLoop, h]

theorem steadyStep_shape (ts : GooseTaskSet) (rng : Rng) (ch : Channel) (st : LoopSt) :
    ∃ evs0 idx req wevs,
      (steadyStep ts rng ch st).1 =
        evs0 ++ Event.steady ((steadyStep ts rng ch st).2.bucket) idx req :: wevs ∧
      (evs0 = [] ∧ (steadyStep ts rng ch st).2.bucket = st.bucket ∨
        evs0 = [Event.shuffled ((steadyStep ts rng ch st).2.bucket)]) ∧
      wevs.all isWaitEv = true ∧ (∃ wrest, wevs = Event.drain :: wrest) ∧
      hooksOf ((steadyStep ts rng ch st).2.user) = hooksOf st.user := by
  unfold steadyStep
  by_cases hx : (st.user.weighted_tasks.getD st.bucket []).length ≤ st.pos
  · simp only [stepSelect, if_pos hx]
    refine ⟨_, _, _, _, rfl, Or.inr rfl, sleepLoop_all_wait _ _ _ _ _ _ _,
      sleepLoop_head _ _ _ _ _ _ _, ?_⟩
    unfold hooksOf
    split <;> simp [advanceBucket]
  · simp only [stepSelect, if_neg hx]
    refine ⟨[], _, _, _, rfl, Or.inl ⟨rfl, by trivial⟩, sleepLoop_all_wait _ _ _ _ _ _ _,
      sleepLoop_head _ _ _ _ _ _ _, ?_⟩
    unfold hooksOf
    split <;> rfl

theorem hookKindEvents_nas (l : List Event)
    (h : l.all (fun e => isOnStartEv e || isOnStopEv e) = true) :
    ∀ b, noAdjSteady b l = true ∧ steadyFlag b l = b := by
  induction l with
  | nil => intro b; exact ⟨rfl, rfl⟩
  | cons e rest ih =>
    intro b
    have he := List.all_eq_true.mp h e (List.mem_cons_self _ _)
    have hr : rest.all (fun e => isOnStartEv e || isOnStopEv e) = true :=
      List.all_eq_true.mpr fun x hx => List.all_eq_true.mp h x (List.mem_cons_of_mem _ hx)
    cases e with
    | onStart i r => simpa [noAdjSteady, steadyFlag] using ih hr b
    | onStop i r => simpa [noAdjSteady, steadyFlag] using ih hr b
    | steady b1 i r => simp [isOnStartEv, isOnStopEv] at he
    | shuffled b1 => simp [isOnStartEv, isOnStopEv] at he
    | drain => simp [isOnStartEv, isOnStopEv] at he
    | sleep => simp [isOnStartEv, isOnStopEv] at he

theorem hookKindEvents_sd (b0 : Nat) (l : List Event)
    (h : l.all (fun e => isOnStartEv e || isOnStopEv e) = true) :
    ∀ seen, shuffleDiscipline b0 seen l = true ∧ seenAfter seen l = seen := by
  induction l with
  | nil => intro seen; exact ⟨rfl, rfl⟩
  | cons e rest ih =>
    intro seen
    have he := List.all_eq_true.mp h e (List.mem_cons_self _ _)
    have hr : rest.all (fun e => isOnStartEv e || isOnStopEv e) = true :=
      List.all_eq_true.mpr fun x hx => List.all_eq_true.mp h x (List.mem_cons_of_mem _ hx)
    cases e with
    | onStart i r => simpa [shuffleDiscipline, seenAfter] using ih hr seen
    | onStop i r => simpa [shuffleDiscipline, seenAfter] using ih hr seen
    | steady b1 i r => simp [isOnStartEv, isOnStopEv] at he
    | shuffled b1 => simp [isOnStartEv, isOnStopEv] at he
    | drain => simp [isOnStartEv, isOnStopEv] at he
    | sleep => simp [isOnStartEv, isOnStopEv] at he

theorem shuffleDiscipline_cons_steady (b0 : Nat) (seen : List Nat) (b i : Nat)
    (r : Option String) (rest : List Event) :
    shuffleDiscipline b0 seen (Event.steady b i r :: rest) =
      ((decide (b ∈ seen) || (seen.isEmpty && b == b0)) && shuffleDiscipline b0 seen rest) := rfl

theorem shuffleDiscipline_cons_shuffled (b0 : Nat) (seen : List Nat) (b : Nat)
    (rest : List Event) :
    shuffleDiscipline b0 seen (Event.shuffled b :: rest) =
      shuffleDiscipline b0 (b :: seen) rest := rfl

theorem seenAfter_cons_steady (seen : List Nat) (b i : Nat) (r : Option String)
    (rest : List Event) :
    seenAfter seen (Event.steady b i r :: rest) = seenAfter seen rest := rfl

theorem seenAfter_cons_shuffled (seen : List Nat) (b : Nat) (rest : List Event) :
    seenAfter seen (Event.shuffled b :: rest) = seenAfter (b :: seen) rest := rfl

theorem steadyLoop_props (ts : GooseTaskSet) (rng : Rng) (ch : Channel) :
    ∀ (fuel : Nat) (st : LoopSt) (evs : List Event) (st' : LoopSt),
      steadyLoop ts rng ch fuel st = some (evs, st') →
      evs.all isLoopEv = true ∧
      hooksOf st'.user = hooksOf st.user ∧
      noAdjSteady false evs = true ∧ steadyFlag false evs = false ∧
      (∀ seen b0, (st.bucket ∈ seen ∨ (seen = [] ∧ st.bucket = b0)) →
        shuffleDiscipline b0 seen evs = true) := by
  intro fuel
  induction fuel with
  | zero =>
    intro st evs st' h
    by_cases htc : st.thread_continue = true
    · simp [steadyLoop, htc] at h
    · rw [steadyLoop_stop ts rng ch 0 st (by simpa using htc)] at h
      have hpair := Option.some.inj h
      have h1 : ([] : List Event) = evs := congrArg Prod.fst hpair
      have h2 : st = st' := congrArg Prod.snd hpair
      subst h1
      subst h2
      exact ⟨rfl, rfl, rfl, rfl, fun seen b0 _ => rfl⟩
  | succ f ih =>
    intro st evs st' h
    by_cases htc : st.thread_continue = true
    · rw [show steadyLoop ts rng ch (f + 1) st =
          (if st.thread_continue then
            match steadyLoop ts rng ch f (steadyStep ts rng ch st).2 with
            | none => none
            | some r => some ((steadyStep ts rng ch st).1 ++ r.1, r.2)
          else some ([], st)) from rfl, if_pos (by simpa using htc)] at h
      cases hrest : steadyLoop ts rng ch f (steadyStep ts rng ch st).2 with
      | none => rw [hrest] at h; cases h
      | some r =>
        rw [hrest] at h
        have hpair := Option.some.inj h
        have h1 : (steadyStep ts rng ch st).1 ++ r.1 = evs := congrArg Prod.fst hpair
        have h2 : r.2 = st' := congrArg Prod.snd hpair
        obtain ⟨evs0, idx, req, wevs, hsh, hcase, hwall, ⟨wrest, hwrest⟩, hhooks⟩ :=
          steadyStep_shape ts rng ch st
        obtain ⟨ihall, ihhooks, ihnas, ihflag, ihsd⟩ := ih (steadyStep ts rng ch st).2 r.1 r.2 hrest
        subst h1
        have hstep_all : (steadyStep ts rng ch st).1.all isLoopEv = true := by
          rw [hsh]
          rw [List.all_append]
          refine (Bool.and_eq_true _ _).mpr ⟨?_, ?_⟩
          · rcases hcase with ⟨he, _⟩ | he <;> rw [he] <;> rfl
          · rw [List.all_cons]
            refine (Bool.and_eq_true _ _).mpr ⟨rfl, ?_⟩
            refine List.all_eq_true.mpr fun x hx => ?_
            have := List.all_eq_true.mp hwall x hx
            cases x <;> simp_all [isWaitEv, isLoopEv, isOnStartEv, isOnStopEv]
        refine ⟨?_, ?_, ?_, ?_, ?_⟩
        · rw [List.all_append]
          exact (Bool.and_eq_true _ _).mpr ⟨hstep_all, ihall⟩
        · rw [h2] at ihhooks
          rw [ihhooks, hhooks]
        · rw [noAdjSteady_append]
          have hW := waitEvents_nas wevs hwall
          have hnas_step : noAdjSteady false (steadyStep ts rng ch st).1 = true := by
            rw [hsh, noAdjSteady_append]
            refine (Bool.and_eq_true _ _).mpr ⟨?_, ?_⟩
            · rcases hcase with ⟨he, _⟩ | he <;> rw [he] <;> rfl
            · have hfl : steadyFlag false evs0 = false := by
                rcases hcase with ⟨he, _⟩ | he <;> rw [he] <;> rfl
              rw [hfl]
              show (!false && noAdjSteady true wevs) = true
              rw [hwrest]
              show noAdjSteady false wrest = true
              have : wrest.all isWaitEv = true := by
                rw [hwrest, List.all_cons] at hwall
                exact ((Bool.and_eq_true _ _).mp hwall).2
              exact (waitEvents_nas wrest this).1
          have hflag_step : steadyFlag false (steadyStep ts rng ch st).1 = false := by
            rw [hsh, steadyFlag_append]
            have hfl : steadyFlag false evs0 = false := by
              rcases hcase with ⟨he, _⟩ | he <;> rw [he] <;> rfl
            rw [hfl]
            show steadyFlag true wevs = false
            rw [hwrest]
            show steadyFlag false wrest = false
            have : wrest.all isWaitEv = true := by
              rw [hwrest, List.all_cons] at hwall
              exact ((Bool.and_eq_true _ _).mp hwall).2
            exact (waitEvents_nas wrest this).2
          rw [hnas_step, hflag_step]
          simpa using ihnas
        · rw [steadyFlag_append]
          have hflag_step : steadyFlag false (steadyStep ts rng ch st).1 = false := by
            rw [hsh, steadyFlag_append]
            have hfl : steadyFlag false evs0 = false := by
              rcases hcase with ⟨he, _⟩ | he <;> rw [he] <;> rfl
            rw [hfl]
            rw [hwrest]
            show steadyFlag false wrest = false
            have : wrest.all isWaitEv = true := by
              rw [hwrest, List.all_cons] at hwall
              exact ((Bool.and_eq_true _ _).mp hwall).2
            exact (waitEvents_nas wrest this).2
          rw [hflag_step]
          exact ihflag
        · intro seen b0 hseen
          rw [shuffleDiscipline_append]
          have hWsd := waitEvents_sd b0 wevs hwall
          rcases hcase with ⟨he0, hbeq⟩ | he0
          · have hc : (decide ((steadyStep ts rng ch st).2.bucket ∈ seen) ||
                (seen.isEmpty && ((steadyStep ts rng ch st).2.bucket == b0))) = true := by
              rw [hbeq]
              rcases hseen with hs | ⟨hs1, hs2⟩
              · simp [hs]
              · subst hs1
                simp [hs2]
            have hsd_step : shuffleDiscipline b0 seen (steadyStep ts rng ch st).1 = true := by
              rw [hsh, he0, List.nil_append, shuffleDiscipline_cons_steady, hc,
                Bool.true_and]
              exact (hWsd seen).1
            have hseen_step : seenAfter seen (steadyStep ts rng ch st).1 = seen := by
              rw [hsh, he0, List.nil_append, seenAfter_cons_steady]
              exact (hWsd seen).2
            rw [hsd_step, hseen_step]
            have hnext : (steadyStep ts rng ch st).2.bucket ∈ seen ∨
                (seen = [] ∧ (steadyStep ts rng ch st).2.bucket = b0) := by
              rw [hbeq]
              exact hseen
            simpa using ihsd seen b0 hnext
          · have hsd_step : shuffleDiscipline b0 seen (steadyStep ts rng ch st).1 = true := by
              rw [hsh, he0, List.singleton_append, shuffleDiscipline_cons_shuffled,
                shuffleDiscipline_cons_steady]
              have hc : (decide ((steadyStep ts rng ch st).2.bucket ∈
                  (steadyStep ts rng ch st).2.bucket :: seen) ||
                  (((steadyStep ts rng ch st).2.bucket :: seen).isEmpty &&
                    ((steadyStep ts rng ch st).2.bucket == b0))) = true := by
                simp
              rw [hc, Bool.true_and]
              exact (hWsd _).1
            have hseen_step : seenAfter seen (steadyStep ts rng ch st).1 =
                (steadyStep ts rng ch st).2.bucket :: seen := by
              rw [hsh, he0, List.singleton_append, seenAfter_cons_shuffled,
                seenAfter_cons_steady]
              exact (hWsd _).2
            rw [hsd_step, hseen_step]
            have hnext : (steadyStep ts rng ch st).2.bucket ∈
                (steadyStep ts rng ch st).2.bucket :: seen ∨
                ((steadyStep ts rng ch st).2.bucket :: seen = [] ∧
                  (steadyStep ts rng ch st).2.bucket = b0) :=
              Or.inl (List.mem_cons_self _ _)
            simpa using ihsd _ b0 hnext
    · rw [steadyLoop_stop ts rng ch (f + 1) st (by simpa using htc)] at h
      have hpair := Option.some.inj h
      have h1 : ([] : List Event) = evs := congrArg Prod.fst hpair
      have h2 : st = st' := congrArg Prod.snd hpair
      subst h1
      subst h2
      exact ⟨rfl, rfl, rfl, rfl, fun seen b0 _ => rfl⟩

theorem runSeqTasks_all (ts : GooseTaskSet) (mk : Nat → Option String → Event)
    (P : Event → Bool) (hmk : ∀ i r, P (mk i r) = true) :
    ∀ (seq : List Nat) (u : GooseUser), ((runSeqTasks ts mk seq u).1).all P = true := by
  intro seq
  induction seq with
  | nil => intro u; rfl
  | cons i rest ih =>
    intro u
    simp only [runSeqTasks, List.all_cons]
    exact (Bool.and_eq_true _ _).mpr ⟨hmk _ _, ih _⟩

theorem runSeqTasks_idx (ts : GooseTaskSet) (mk : Nat → Option String → Event)
    (f : Event → Option Nat) (hmk : ∀ i r, f (mk i r) = some i) :
    ∀ (seq : List Nat) (u : GooseUser), ((runSeqTasks ts mk seq u).1).filterMap f = seq := by
  intro seq
  induction seq with
  | nil => intro u; rfl
  | cons i rest ih =>
    intro u
    simp only [runSeqTasks, List.filterMap_cons, hmk]
    rw [ih]

theorem runSeqTasks_core (ts : GooseTaskSet) (mk : Nat → Option String → Event) :
    ∀ (seq : List Nat) (u : GooseUser), coreOf (runSeqTasks ts mk seq u).2 = coreOf u := by
  intro seq
  induction seq with
  | nil => intro u; rfl
  | cons i rest ih =>
    intro u
    simp only [runSeqTasks]
    rw [ih]
    unfold coreOf
    split <;> rfl

theorem runHookTasks_all (ts : GooseTaskSet) (rng : Rng) (mk : Nat → Option String → Event)
    (P : Event → Bool) (hmk : ∀ i r, P (mk i r) = true) :
    ∀ (plan : List (List Nat)) (u : GooseUser) (rp : Nat),
      ((runHookTasks ts rng mk plan u rp).1).all P = true := by
  intro plan
  induction plan with
  | nil => intro u rp; rfl
  | cons seq rest ih =>
    intro u rp
    simp only [runHookTasks, List.all_append]
    exact (Bool.and_eq_true _ _).mpr ⟨runSeqTasks_all ts mk P hmk _ _, ih _ _⟩

theorem runHookTasks_count (ts : GooseTaskSet) (rng : Rng)
    (mk : Nat → Option String → Event) (f : Event → Option Nat)
    (hmk : ∀ i r, f (mk i r) = some i) :
    ∀ (plan : List (List Nat)) (u : GooseUser) (rp : Nat) (j : Nat),
      (((runHookTasks ts rng mk plan u rp).1).filterMap f).count j =
        (plan.flatten).count j := by
  intro plan
  induction plan with
  | nil => intro u rp j; rfl
  | cons seq rest ih =>
    intro u rp j
    simp only [runHookTasks, List.filterMap_append, List.count_append, List.flatten_cons]
    rw [runSeqTasks_idx ts mk f hmk, ih]
    have hs : ((if 1 < seq.length then shuffle rng seq rp else (seq, rp)).1).count j =
        seq.count j := by
      split
      · exact shuffle_count rng seq rp j
      · rfl
    rw [hs]

theorem runHookTasks_core (ts : GooseTaskSet) (rng : Rng)
    (mk : Nat → Option String → Event) :
    ∀ (plan : List (List Nat)) (u : GooseUser) (rp : Nat),
      coreOf (runHookTasks ts rng mk plan u rp).2.1 = coreOf u := by
  intro plan
  induction plan with
  | nil => intro u rp; rfl
  | cons seq rest ih =>
    intro u rp
    simp only [runHookTasks]
    rw [ih, runSeqTasks_core]

theorem steadyStep_congr (c1 c2 : Channel)
    (h : ∀ d, GooseUserCommand.EXIT ∈ c1 d ↔ GooseUserCommand.EXIT ∈ c2 d)
    (ts : GooseTaskSet) (rng : Rng) (st : LoopSt) :
    steadyStep ts rng c1 st = steadyStep ts rng c2 st := by
  have hw : ∀ mw wt tc dp, sleepLoopRun c1 mw wt tc dp = sleepLoopRun c2 mw wt tc dp :=
    fun mw wt tc dp => sleepLoop_congr c1 c2 h mw wt wt tc 0 dp
  simp only [steadyStep, hw]

theorem steadyLoop_congr (c1 c2 : Channel)
    (h : ∀ d, GooseUserCommand.EXIT ∈ c1 d ↔ GooseUserCommand.EXIT ∈ c2 d)
    (ts : GooseTaskSet) (rng : Rng) :
    ∀ (fuel : Nat) (st : LoopSt),
      steadyLoop ts rng c1 fuel st = steadyLoop ts rng c2 fuel st := by
  intro fuel
  induction fuel with
  | zero => intro st; rfl
  | succ f ih =>
    intro st
    simp only [steadyLoop, steadyStep_congr c1 c2 h ts rng, ih]

theorem user_main_congr (c1 c2 : Channel)
    (h : ∀ d, GooseUserCommand.EXIT ∈ c1 d ↔ GooseUserCommand.EXIT ∈ c2 d)
    (ts : GooseTaskSet) (rng : Rng) (u : GooseUser) (fuel : Nat) :
    user_main ts rng c1 u fuel = user_main ts rng c2 u fuel := by
  simp only [user_main, steadyLoop_congr c1 c2 h ts rng]

theorem user_main_eq (ts : GooseTaskSet) (rng : Rng) (ch : Channel) (u : GooseUser)
    (fuel : Nat) (tr : List Event) (st' : LoopSt)
    (h : user_main ts rng ch u fuel = some (tr, st')) :
    ∃ e2 stMid,
      steadyLoop ts rng ch fuel
        (initSt (runHookTasks ts rng Event.onStart u.weighted_on_start_tasks u 0).2.1
          (runHookTasks ts rng Event.onStart u.weighted_on_start_tasks u 0).2.2) =
        some (e2, stMid) ∧
      tr = (runHookTasks ts rng Event.onStart u.weighted_on_start_tasks u 0).1 ++ e2 ++
        (runHookTasks ts rng Event.onStop stMid.user.weighted_on_stop_tasks stMid.user
          stMid.rp).1 ∧
      st'.thread_continue = stMid.thread_continue := by
  simp only [user_main] at h
  cases hs : steadyLoop ts rng ch fuel
      (initSt (runHookTasks ts rng Event.onStart u.weighted_on_start_tasks u 0).2.1
        (runHookTasks ts rng Event.onStart u.weighted_on_start_tasks u 0).2.2) with
  | none =>
    rw [hs] at h
    exact absurd h (by simp)
  | some r =>
    rw [hs] at h
    refine ⟨r.1, r.2, rfl, ?_, ?_⟩
    · injection h with hp
      exact (congrArg Prod.fst hp).symm
    · injection h with hp
      have h2 : r.2.thread_continue = st'.thread_continue :=
        congrArg (fun p => p.2.thread_continue) hp
      exact h2.symm

theorem steadyStep_exit (ts : GooseTaskSet) (rng : Rng) (ch : Channel) (st : LoopSt)
    (hex : GooseUserCommand.EXIT ∈ ch st.dp) :
    (steadyStep ts rng ch st).2.thread_continue = false ∧
    ((steadyStep ts rng ch st).1.filter isSteadyEv).length = 1 ∧
    (steadyStep ts rng ch st).1.count Event.sleep = 0 := by
  have hw : ∀ mw wt tc, sleepLoopRun ch mw wt tc st.dp = ([Event.drain], false, st.dp + 1) :=
    fun mw wt tc => sleepLoop_exit ch mw wt wt tc 0 st.dp hex
  unfold steadyStep
  by_cases hx : (st.user.weighted_tasks.getD st.bucket []).length ≤ st.pos
  · simp only [stepSelect, if_pos hx, hw]
    refine ⟨by trivial, ?_, ?_⟩ <;>
      simp [isSteadyEv, List.filter, List.count_cons]
  · simp only [stepSelect, if_neg hx, hw]
    refine ⟨by trivial, ?_, ?_⟩ <;>
      simp [isSteadyEv, List.filter, List.count_cons]

theorem hookKind_no_loop (l : List Event)
    (h : l.all (fun e => isOnStartEv e || isOnStopEv e) = true) :
    l.filter isSteadyEv = [] ∧ l.count Event.sleep = 0 := by
  constructor
  · rw [List.filter_eq_nil_iff]
    intro a ha
    have := List.all_eq_true.mp h a ha
    cases a <;> simp_all [isOnStartEv, isOnStopEv, isSteadyEv]
  · rw [List.count_eq_zero]
    intro hmem
    have := List.all_eq_true.mp h _ hmem
    simp [isOnStartEv, isOnStopEv] at this

/-- The user as the current iteration sees it right after the naming step of
user.rs lines 96-99: the user of the (possibly advanced) selection, with
task_request_name overwritten when the selected task has a non-empty name.
Recomputes exactly the intermediate value of steadyStep. -/
def stepNamedUser (ts : GooseTaskSet) (rng : Rng) (st : LoopSt) : GooseUser :=
  let a := stepSelect rng st
  let idx := (a.2.1.weighted_tasks.getD a.2.2.1 []).getD a.2.2.2.1 0
  let nm := taskNameOf ts idx
  if nm = "" then a.2.1 else { a.2.1 with task_request_name := some nm }

/-- The wait the current iteration draws at user.rs lines 103-108, exactly the
intermediate value of steadyStep. -/
def stepWait (ts : GooseTaskSet) (rng : Rng) (st : LoopSt) : Nat :=
  waitDraw (stepNamedUser ts rng st) (rng (stepSelect rng st).2.2.2.2)

/-- Scan of a trace checking that every steady invocation comes from the most
recently shuffled bucket — the bucket whose entry through the advance branch
emitted that shuffle — or, while no shuffle has happened yet, from the
initial bucket b0.  The state is the last shuffled bucket (none before the
first shuffle), so a bucket re-entered later needs a fresh shuffle before
its tasks may appear. -/
def perEntryShuffle (b0 : Nat) : Option Nat → List Event → Bool
  | _, [] => true
  | cur, Event.steady b _ _ :: rest =>
    (b == cur.getD b0) && perEntryShuffle b0 cur rest
  | _, Event.shuffled b :: rest => perEntryShuffle b0 (some b) rest
  | cur, _ :: rest => perEntryShuffle b0 cur rest

/-- Most recently shuffled bucket after scanning a trace. -/
def curAfter (cur : Option Nat) : List Event → Option Nat
  | [] => cur
  | Event.shuffled b :: rest => curAfter (some b) rest
  | _ :: rest => curAfter cur rest

/-- Task indices of the steady invocations of a trace, in order. -/
def steadyIdxs (l : List Event) : List Nat :=
  l.filterMap fun e =>
    match e with
    | Event.steady _ i _ => some i
    | _ => none

/-- Prefix of a trace before its first shuffle event. -/
def beforeShuffle : List Event → List Event
  | [] => []
  | Event.shuffled _ :: _ => []
  | e :: rest => e :: beforeShuffle rest

theorem perEntryShuffle_cons_steady (b0 : Nat) (cur : Option Nat) (b i : Nat)
    (r : Option String) (rest : List Event) :
    perEntryShuffle b0 cur (Event.steady b i r :: rest) =
      ((b == cur.getD b0) && perEntryShuffle b0 cur rest) := rfl

theorem perEntryShuffle_cons_shuffled (b0 : Nat) (cur : Option Nat) (b : Nat)
    (rest : List Event) :
    perEntryShuffle b0 cur (Event.shuffled b :: rest) =
      perEntryShuffle b0 (some b) rest := rfl

theorem curAfter_cons_steady (cur : Option Nat) (b i : Nat) (r : Option String)
    (rest : List Event) :
    curAfter cur (Event.steady b i r :: rest) = curAfter cur rest := rfl

theorem curAfter_cons_shuffled (cur : Option Nat) (b : Nat) (rest : List Event) :
    curAfter cur (Event.shuffled b :: rest) = curAfter (some b) rest := rfl

theorem perEntryShuffle_append (b0 : Nat) (l1 l2 : List Event) :
    ∀ cur, perEntryShuffle b0 cur (l1 ++ l2) =
      (perEntryShuffle b0 cur l1 && perEntryShuffle b0 (curAfter cur l1) l2) := by
  induction l1 with
  | nil => intro cur; simp [perEntryShuffle, curAfter]
  | cons e rest ih =>
    intro cur
    cases e <;> simp [perEntryShuffle, curAfter, ih, Bool.and_assoc]

theorem waitEvents_pes (b0 : Nat) (l : List Event) (hl : l.all isWaitEv = true) :
    ∀ cur, perEntryShuffle b0 cur l = true ∧ curAfter cur l = cur := by
  induction l with
  | nil => intro cur; exact ⟨rfl, rfl⟩
  | cons e rest ih =>
    intro cur
    have he : isWaitEv e = true := List.all_eq_true.mp hl e (List.mem_cons_self _ _)
    have hr : rest.all isWaitEv = true :=
      List.all_eq_true.mpr fun x hx => List.all_eq_true.mp hl x (List.mem_cons_of_mem _ hx)
    cases e <;> simp_all [isWaitEv, perEntryShuffle, curAfter]

theorem hookKindEvents_pes (b0 : Nat) (l : List Event)
    (hl : l.all (fun e => isOnStartEv e || isOnStopEv e) = true) :
    ∀ cur, perEntryShuffle b0 cur l = true ∧ curAfter cur l = cur := by
  induction l with
  | nil => intro cur; exact ⟨rfl, rfl⟩
  | cons e rest ih =>
    intro cur
    have he := List.all_eq_true.mp hl e (List.mem_cons_self _ _)
    have hr : rest.all (fun e => isOnStartEv e || isOnStopEv e) = true :=
      List.all_eq_true.mpr fun x hx => List.all_eq_true.mp hl x (List.mem_cons_of_mem _ hx)
    cases e with
    | onStart i r => simpa [perEntryShuffle, curAfter] using ih hr cur
    | onStop i r => simpa [perEntryShuffle, curAfter] using ih hr cur
    | steady b1 i r => simp [isOnStartEv, isOnStopEv] at he
    | shuffled b1 => simp [isOnStartEv, isOnStopEv] at he
    | drain => simp [isOnStartEv, isOnStopEv] at he
    | sleep => simp [isOnStartEv, isOnStopEv] at he

theorem waitEvents_no_steady (l : List Event) (h : l.all isWaitEv = true) :
    l.filter isSteadyEv = [] := by
  rw [List.filter_eq_nil_iff]
  intro a ha
  have := List.all_eq_true.mp h a ha
  cases a <;> simp_all [isWaitEv, isSteadyEv]

theorem steadyIdxs_wait (l : List Event) (h : l.all isWaitEv = true) :
    steadyIdxs l = [] := by
  rw [steadyIdxs, List.filterMap_eq_nil]
  intro a ha
  have := List.all_eq_true.mp h a ha
  cases a <;> simp_all [isWaitEv]

theorem steadyIdxs_hook (l : List Event)
    (h : l.all (fun e => isOnStartEv e || isOnStopEv e) = true) :
    steadyIdxs l = [] := by
  rw [steadyIdxs, List.filterMap_eq_nil]
  intro a ha
  have := List.all_eq_true.mp h a ha
  cases a <;> simp_all [isOnStartEv, isOnStopEv]

theorem beforeShuffle_wait_append (l1 l2 : List Event) (h : l1.all isWaitEv = true) :
    beforeShuffle (l1 ++ l2) = l1 ++ beforeShuffle l2 := by
  induction l1 with
  | nil => rfl
  | cons e rest ih =>
    have he : isWaitEv e = true := List.all_eq_true.mp h e (List.mem_cons_self _ _)
    have hr : rest.all isWaitEv = true :=
      List.all_eq_true.mpr fun x hx => List.all_eq_true.mp h x (List.mem_cons_of_mem _ hx)
    cases e <;> simp_all [beforeShuffle, isWaitEv]

theorem beforeShuffle_hook_append (l1 l2 : List Event)
    (h : l1.all (fun e => isOnStartEv e || isOnStopEv e) = true) :
    beforeShuffle (l1 ++ l2) = l1 ++ beforeShuffle l2 := by
  induction l1 with
  | nil => rfl
  | cons e rest ih =>
    have he := List.all_eq_true.mp h e (List.mem_cons_self _ _)
    have hr : rest.all (fun e => isOnStartEv e || isOnStopEv e) = true :=
      List.all_eq_true.mpr fun x hx => List.all_eq_true.mp h x (List.mem_cons_of_mem _ hx)
    cases e <;> simp_all [beforeShuffle, isOnStartEv, isOnStopEv]

theorem beforeShuffle_mem (l : List Event) : ∀ e ∈ beforeShuffle l, e ∈ l := by
  induction l with
  | nil => intro e he; cases he
  | cons a rest ih =>
    intro e he
    cases a with
    | shuffled b => cases he
    | onStart i r =>
      rcases List.mem_cons.mp he with h1 | h1
      · exact h1 ▸ List.mem_cons_self _ _
      · exact List.mem_cons_of_mem _ (ih e h1)
    | onStop i r =>
      rcases List.mem_cons.mp he with h1 | h1
      · exact h1 ▸ List.mem_cons_self _ _
      · exact List.mem_cons_of_mem _ (ih e h1)
    | steady b i r =>
      rcases List.mem_cons.mp he with h1 | h1
      · exact h1 ▸ List.mem_cons_self _ _
      · exact List.mem_cons_of_mem _ (ih e h1)
    | drain =>
      rcases List.mem_cons.mp he with h1 | h1
      · exact h1 ▸ List.mem_cons_self _ _
      · exact List.mem_cons_of_mem _ (ih e h1)
    | sleep =>
      rcases List.mem_cons.mp he with h1 | h1
      · exact h1 ▸ List.mem_cons_self _ _
      · exact List.mem_cons_of_mem _ (ih e h1)

theorem steadyIdxs_beforeShuffle_stop_append (l1 l2 : List Event)
    (h : l2.all isOnStopEv = true) :
    steadyIdxs (beforeShuffle (l1 ++ l2)) = steadyIdxs (beforeShuffle l1) := by
  induction l1 with
  | nil =>
    rw [List.nil_append]
    have hnil : steadyIdxs (beforeShuffle l2) = [] := by
      rw [steadyIdxs, List.filterMap_eq_nil]
      intro a ha
      have := List.all_eq_true.mp h a (beforeShuffle_mem l2 a ha)
      cases a <;> simp_all [isOnStopEv]
    rw [hnil]
    rfl
  | cons e rest ih =>
    cases e <;> simp [beforeShuffle, steadyIdxs, List.filterMap_cons] <;>
      simpa [steadyIdxs] using ih

/-- From any wait state — any slept count, fuel and drain cursor — a drain
that sees EXIT ends the wait at once: events are the single drain (no sleep
slice follows), thread_continue is cleared, the cursor advances by one. -/
theorem sleepLoop_exit_mid (ch : Channel) (mw wt fuel : Nat) (tc : Bool)
    (slept dp : Nat) (h : GooseUserCommand.EXIT ∈ ch dp) :
    sleepLoop ch mw wt fuel tc slept dp = ([Event.drain], false, dp + 1) :=
  sleepLoop_exit ch mw wt fuel tc slept dp h

/-- A wait whose first k drains see no EXIT and whose k-th drain (k ≤
wait_time) does: the loop takes exactly the k slices before that drain and
none after, ends with thread_continue false, and has drained k + 1 batches. -/
theorem sleepLoop_exit_at (ch : Channel) (mw wt : Nat) (hmw : 0 < mw) :
    ∀ (k fuel slept dp : Nat), fuel + slept = wt → k ≤ fuel →
      (∀ d, dp ≤ d → d < dp + k → GooseUserCommand.EXIT ∉ ch d) →
      GooseUserCommand.EXIT ∈ ch (dp + k) →
      (sleepLoop ch mw wt fuel true slept dp).1.count Event.sleep = k ∧
        (sleepLoop ch mw wt fuel true slept dp).2.1 = false ∧
        (sleepLoop ch mw wt fuel true slept dp).2.2 = dp + k + 1 := by
  intro k
  induction k with
  | zero =>
    intro fuel slept dp hinv hk hwin hex
    rw [sleepLoop_exit ch mw wt fuel true slept dp (by simpa using hex)]
    exact ⟨rfl, rfl, rfl⟩
  | succ j ih =>
    intro fuel slept dp hinv hk hwin hex
    cases fuel with
    | zero => omega
    | succ f =>
      have h0 : GooseUserCommand.EXIT ∉ ch dp := hwin dp le_rfl (by omega)
      have hlt : ¬ wt < slept + 1 := by omega
      have ihr := ih f (slept + 1) (dp + 1) (by omega) (by omega)
        (fun d h1 h2 => hwin d (by omega) (by omega))
        (by simpa [Nat.add_assoc, Nat.add_comm, Nat.add_left_comm] using hex)
      simp only [sleepLoop, processMessages_no_exit _ _ h0, hmw, hlt, and_true,
        if_true, if_false, if_neg hlt]
      refine ⟨?_, ihr.2.1, ?_⟩
      · simp only [List.count_cons, ihr.1]
        simp
      · rw [ihr.2.2]
        omega

/-- One-step unfolding of the steady loop at positive fuel. -/
theorem steadyLoop_succ (ts : GooseTaskSet) (rng : Rng) (ch : Channel) (f : Nat)
    (st : LoopSt) :
    steadyLoop ts rng ch (f + 1) st =
      (if st.thread_continue then
        match steadyLoop ts rng ch f (steadyStep ts rng ch st).2 with
        | none => none
        | some r => some ((steadyStep ts rng ch st).1 ++ r.1, r.2)
      else some ([], st)) := rfl

/-- In the non-advance branch the iteration invokes the task stored at the
current (bucket, position), keeps the bucket, advances the position and
leaves the steady plan untouched. -/
theorem steadyStep_no_advance (ts : GooseTaskSet) (rng : Rng) (ch : Channel)
    (st : LoopSt)
    (hx : ¬ (st.user.weighted_tasks.getD st.bucket []).length ≤ st.pos) :
    (steadyStep ts rng ch st).1 =
      Event.steady st.bucket ((st.user.weighted_tasks.getD st.bucket []).getD st.pos 0)
        ((stepNamedUser ts rng st).task_request_name) ::
        (sleepLoopRun ch (stepNamedUser ts rng st).max_wait (stepWait ts rng st)
          st.thread_continue st.dp).1 ∧
    (steadyStep ts rng ch st).2.bucket = st.bucket ∧
    (steadyStep ts rng ch st).2.pos = st.pos + 1 ∧
    (steadyStep ts rng ch st).2.user.weighted_tasks = st.user.weighted_tasks := by
  refine ⟨?_, ?_, ?_, ?_⟩
  · simp only [steadyStep, stepNamedUser, stepWait, stepSelect, if_neg hx,
      List.nil_append]
  · simp only [steadyStep, stepSelect, if_neg hx]
  · simp only [steadyStep, stepSelect, if_neg hx]
  · simp only [steadyStep, stepSelect, if_neg hx]
    split <;> rfl

/-- In the advance branch the iteration's first event is the shuffle of the
bucket entered. -/
theorem steadyStep_advance (ts : GooseTaskSet) (rng : Rng) (ch : Channel)
    (st : LoopSt)
    (hx : (st.user.weighted_tasks.getD st.bucket []).length ≤ st.pos) :
    ∃ tl, (steadyStep ts rng ch st).1 =
      Event.shuffled ((steadyStep ts rng ch st).2.bucket) :: tl := by
  simp only [steadyStep, stepSelect, if_pos hx]
  exact ⟨_, rfl⟩

theorem coreOf_position {x y : GooseUser} (h : coreOf x = coreOf y) :
    x.weighted_bucket_position = y.weighted_bucket_position :=
  congrArg (fun t => t.2.2.2.2.1) h

theorem beforeShuffle_cons_steady (b i : Nat) (r : Option String) (rest : List Event) :
    beforeShuffle (Event.steady b i r :: rest) =
      Event.steady b i r :: beforeShuffle rest := rfl

theorem steadyIdxs_cons_steady (b i : Nat) (r : Option String) (rest : List Event) :
    steadyIdxs (Event.steady b i r :: rest) = i :: steadyIdxs rest := rfl

theorem steadyIdxs_append (l1 l2 : List Event) :
    steadyIdxs (l1 ++ l2) = steadyIdxs l1 ++ steadyIdxs l2 :=
  List.filterMap_append _ _ _

/-- Per-entry shuffle invariant of the steady loop: every steady invocation
the loop emits comes from the most recently shuffled bucket, or from the
initial bucket b0 while no shuffle has happened, provided the loop's current
bucket agrees with that state at entry. -/
theorem steadyLoop_perEntry (ts : GooseTaskSet) (rng : Rng) (ch : Channel) (b0 : Nat) :
    ∀ (fuel : Nat) (st : LoopSt) (evs : List Event) (st' : LoopSt) (cur : Option Nat),
      st.bucket = cur.getD b0 →
      steadyLoop ts rng ch fuel st = some (evs, st') →
      perEntryShuffle b0 cur evs = true := by
  intro fuel
  induction fuel with
  | zero =>
    intro st evs st' cur hb h
    by_cases htc : st.thread_continue = true
    · simp [steadyLoop, htc] at h
    · rw [steadyLoop_stop ts rng ch 0 st (by simpa using htc)] at h
      have h1 : ([] : List Event) = evs := congrArg Prod.fst (Option.some.inj h)
      subst h1
      rfl
  | succ f ih =>
    intro st evs st' cur hb h
    by_cases htc : st.thread_continue = true
    · rw [steadyLoop_succ, if_pos (by simpa using htc)] at h
      cases hrest : steadyLoop ts rng ch f (steadyStep ts rng ch st).2 with
      | none => rw [hrest] at h; cases h
      | some r =>
        rw [hrest] at h
        have h1 : (steadyStep ts rng ch st).1 ++ r.1 = evs :=
          congrArg Prod.fst (Option.some.inj h)
        subst h1
        obtain ⟨evs0, idx, req, wevs, hsh, hcase, hwall, _, _⟩ :=
          steadyStep_shape ts rng ch st
        rw [perEntryShuffle_append, hsh]
        rcases hcase with ⟨he0, hbeq⟩ | he0
        · have hW := waitEvents_pes b0 wevs hwall cur
          have hc : ((steadyStep ts rng ch st).2.bucket == cur.getD b0) = true := by
            rw [hbeq, hb]
            simp
          have hstep : perEntryShuffle b0 cur
              (evs0 ++ Event.steady ((steadyStep ts rng ch st).2.bucket) idx req :: wevs)
              = true := by
            rw [he0, List.nil_append, perEntryShuffle_cons_steady, hc, Bool.true_and]
            exact hW.1
          have hcur : curAfter cur
              (evs0 ++ Event.steady ((steadyStep ts rng ch st).2.bucket) idx req :: wevs)
              = cur := by
            rw [he0, List.nil_append, curAfter_cons_steady]
            exact hW.2
          rw [hstep, hcur, Bool.true_and]
          exact ih (steadyStep ts rng ch st).2 r.1 r.2 cur (by rw [hbeq, hb]) hrest
        · have hW := waitEvents_pes b0 wevs hwall (some ((steadyStep ts rng ch st).2.bucket))
          have hstep : perEntryShuffle b0 cur
              (evs0 ++ Event.steady ((steadyStep ts rng ch st).2.bucket) idx req :: wevs)
              = true := by
            rw [he0, List.singleton_append, perEntryShuffle_cons_shuffled,
              perEntryShuffle_cons_steady]
            simp only [Option.getD_some, beq_self_eq_true, Bool.true_and]
            exact hW.1
          have hcur : curAfter cur
              (evs0 ++ Event.steady ((steadyStep ts rng ch st).2.bucket) idx req :: wevs)
              = some ((steadyStep ts rng ch st).2.bucket) := by
            rw [he0, List.singleton_append, curAfter_cons_shuffled, curAfter_cons_steady]
            exact hW.2
          rw [hstep, hcur, Bool.true_and]
          exact ih (steadyStep ts rng ch st).2 r.1 r.2
            (some ((steadyStep ts rng ch st).2.bucket)) rfl hrest
    · rw [steadyLoop_stop ts rng ch (f + 1) st (by simpa using htc)] at h
      have h1 : ([] : List Event) = evs := congrArg Prod.fst (Option.some.inj h)
      subst h1
      rfl

/-- Stored-order invariant of the steady loop: the steady invocations emitted
before the first shuffle execute, in order, an initial segment of the current
bucket's stored tail from the current position. -/
theorem steadyLoop_storedOrder (ts : GooseTaskSet) (rng : Rng) (ch : Channel) :
    ∀ (fuel : Nat) (st : LoopSt) (evs : List Event) (st' : LoopSt),
      steadyLoop ts rng ch fuel st = some (evs, st') →
      ∃ n, steadyIdxs (beforeShuffle evs) =
        ((st.user.weighted_tasks.getD st.bucket []).drop st.pos).take n := by
  intro fuel
  induction fuel with
  | zero =>
    intro st evs st' h
    by_cases htc : st.thread_continue = true
    · simp [steadyLoop, htc] at h
    · rw [steadyLoop_stop ts rng ch 0 st (by simpa using htc)] at h
      have h1 : ([] : List Event) = evs := congrArg Prod.fst (Option.some.inj h)
      subst h1
      exact ⟨0, rfl⟩
  | succ f ih =>
    intro st evs st' h
    by_cases htc : st.thread_continue = true
    · rw [steadyLoop_succ, if_pos (by simpa using htc)] at h
      cases hrest : steadyLoop ts rng ch f (steadyStep ts rng ch st).2 with
      | none => rw [hrest] at h; cases h
      | some r =>
        rw [hrest] at h
        have h1 : (steadyStep ts rng ch st).1 ++ r.1 = evs :=
          congrArg Prod.fst (Option.some.inj h)
        subst h1
        by_cases hx : (st.user.weighted_tasks.getD st.bucket []).length ≤ st.pos
        · obtain ⟨tl, htl⟩ := steadyStep_advance ts rng ch st hx
          rw [htl, List.cons_append]
          exact ⟨0, rfl⟩
        · obtain ⟨hev, hbk, hpos, hwts⟩ := steadyStep_no_advance ts rng ch st hx
          have hwall : (sleepLoopRun ch (stepNamedUser ts rng st).max_wait
              (stepWait ts rng st) st.thread_continue st.dp).1.all isWaitEv = true :=
            sleepLoop_all_wait _ _ _ _ _ _ _
          obtain ⟨n, hn⟩ := ih (steadyStep ts rng ch st).2 r.1 r.2 hrest
          rw [hwts, hbk, hpos] at hn
          have hplt : st.pos < (st.user.weighted_tasks.getD st.bucket []).length := by
            omega
          have hidx : (st.user.weighted_tasks.getD st.bucket []).getD st.pos 0 =
              (st.user.weighted_tasks.getD st.bucket [])[st.pos] :=
            List.getD_eq_getElem _ _ hplt
          refine ⟨n + 1, ?_⟩
          rw [hev, List.cons_append, beforeShuffle_cons_steady,
            beforeShuffle_wait_append _ _ hwall, steadyIdxs_cons_steady,
            steadyIdxs_append, steadyIdxs_wait _ hwall, List.nil_append, hn, hidx,
            List.drop_eq_getElem_cons hplt, List.take_succ_cons]
    · rw [steadyLoop_stop ts rng ch (f + 1) st (by simpa using htc)] at h
      have h1 : ([] : List Event) = evs := congrArg Prod.fst (Option.some.inj h)
      subst h1
      exact ⟨0, rfl⟩

/-- Constant-zero rng stream for the concrete executions. -/
def rng0 : Rng := fun _ => 0

/-- Task set with two named tasks. -/
def exTaskSet : GooseTaskSet :=
  { name := "s", tasks := [{ name := "t0" }, { name := "t1" }] }

/-- Task set with one named and one unnamed task. -/
def exTaskSetName : GooseTaskSet :=
  { name := "s", tasks := [{ name := "a" }, { name := "" }] }

/-- User with two singleton steady buckets and no hooks. -/
def exUser2 : GooseUser :=
  { weighted_on_start_tasks := []
    weighted_tasks := [[0], [1]]
    weighted_on_stop_tasks := []
    weighted_bucket := 0
    weighted_bucket_position := 0
    task_request_name := none
    min_wait := 0
    max_wait := 0 }

/-- User with an on-start bucket, two steady buckets and an on-stop bucket. -/
def exUserFull : GooseUser :=
  { weighted_on_start_tasks := [[0]]
    weighted_tasks := [[0], [1]]
    weighted_on_stop_tasks := [[1]]
    weighted_bucket := 0
    weighted_bucket_position := 0
    task_request_name := none
    min_wait := 0
    max_wait := 0 }

/-- User with one steady bucket holding the named then the unnamed task. -/
def exUserName : GooseUser :=
  { weighted_on_start_tasks := []
    weighted_tasks := [[0, 1]]
    weighted_on_stop_tasks := []
    weighted_bucket := 0
    weighted_bucket_position := 0
    task_request_name := none
    min_wait := 0
    max_wait := 0 }

/-- User with hooks only and an empty steady plan. -/
def exUserHooks : GooseUser :=
  { weighted_on_start_tasks := [[0]]
    weighted_tasks := []
    weighted_on_stop_tasks := [[1], [0, 1]]
    weighted_bucket := 0
    weighted_bucket_position := 0
    task_request_name := none
    min_wait := 0
    max_wait := 0 }

/-- User with wait bounds 2 and 5. -/
def exUserWait : GooseUser :=
  { weighted_on_start_tasks := []
    weighted_tasks := [[0]]
    weighted_on_stop_tasks := []
    weighted_bucket := 0
    weighted_bucket_position := 0
    task_request_name := none
    min_wait := 2
    max_wait := 5 }

/-- Channel with EXIT at the third drain. -/
def exChannel3 : Channel := fun d => if d = 2 then [GooseUserCommand.EXIT] else []

/-- Channel with EXIT at the second drain. -/
def exChannel1 : Channel := fun d => if d = 1 then [GooseUserCommand.EXIT] else []

/-- Channel with EXIT available immediately. -/
def exChannelExit : Channel := fun _ => [GooseUserCommand.EXIT]

/-- The silent channel. -/
def exChannelNil : Channel := fun _ => []

/-- Channel delivering a noise command at every drain and EXIT together with
noise at the third drain. -/
def exChannelNoise : Channel := fun d =>
  if d = 2 then [GooseUserCommand.other 5, GooseUserCommand.EXIT]
  else [GooseUserCommand.other 9]

/-- Stopped loop state used by the C7 witness. -/
def exStStop : LoopSt :=
  { user := exUser2
    thread_continue := false
    bucket := 0
    pos := 0
    rp := 0
    dp := 0 }

/-- Completed concrete run shared by several witnesses. -/
def exRunFull : Option (List Event × LoopSt) :=
  user_main exTaskSet rng0 exChannel3 exUserFull 10

/-- Trace of exRunFull. -/
def exTrFull : List Event := (exRunFull.map Prod.fst).getD []

/-- Final state of exRunFull. -/
def exStFull : LoopSt := (exRunFull.map Prod.snd).getD (initSt exUserFull 0)

/-- C1: at a concrete two-bucket user, the advance branch of the steady loop
computes new local bucket index 1 but stores the reset position 0 into the
shared weighted_bucket atomic, so after the advance the atomic does not equal
the local bucket index used to select the next task: the store of the new
bucket index that the claim describes does not happen (the mis-store of
user.rs line 78). -/
theorem c1_advance_stores_position_not_bucket :
    (advanceBucket rng0 exUser2 0 0).2.1 = 1 ∧
    (advanceBucket rng0 exUser2 0 0).1.weighted_bucket = 0 ∧
    (advanceBucket rng0 exUser2 0 0).1.weighted_bucket ≠
      (advanceBucket rng0 exUser2 0 0).2.1 :=
  ⟨by rfl, by rfl, by decide⟩

/-- C2 (failing execution): running the concrete plan [named task "a",
unnamed task] shows the unnamed task invoked with task_request_name still
Some "a" from the previous task, not unset as the claim requires; requests of
the unnamed task would be recorded under the previous task's name. -/
theorem c2_unnamed_task_observes_previous_name :
    ((user_main exTaskSetName rng0 exChannel1 exUserName 10).map Prod.fst) =
      some [Event.steady 0 0 (some "a"), Event.drain,
        Event.steady 0 1 (some "a"), Event.drain] ∧
    taskNameOf exTaskSetName 1 = "" :=
  ⟨by rfl, by rfl⟩

/-- C5: the wait drawn after a steady task is 0 when max_wait = 0, and when
min_wait < max_wait it lies in the half-open range [min_wait, max_wait) and
every value of that range is hit by exactly one residue of the rng draw, so
a uniform draw yields a uniform wait over [min_wait, max_wait). -/
theorem c5_wait_uniform_range (u : GooseUser) (r : Nat) :
    (u.max_wait = 0 → waitDraw u r = 0) ∧
    (u.min_wait < u.max_wait →
      u.min_wait ≤ waitDraw u r ∧ waitDraw u r < u.max_wait ∧
      (∀ v, u.min_wait ≤ v → v < u.max_wait →
        ∃! s, s < u.max_wait - u.min_wait ∧ gen_range s u.min_wait u.max_wait = v)) := by
  constructor
  · intro h
    simp [waitDraw, h]
  · intro h
    have hmax : 0 < u.max_wait := by omega
    have hpos : 0 < u.max_wait - u.min_wait := by omega
    have hmod : r % (u.max_wait - u.min_wait) < u.max_wait - u.min_wait :=
      Nat.mod_lt _ hpos
    refine ⟨?_, ?_, ?_⟩
    · simp only [waitDraw, gen_range, if_pos hmax]
      omega
    · simp only [waitDraw, gen_range, if_pos hmax]
      omega
    · intro v hv1 hv2
      refine ⟨v - u.min_wait, ⟨by omega, ?_⟩, ?_⟩
      · unfold gen_range
        rw [Nat.mod_eq_of_lt (by omega)]
        omega
      · intro s hs
        obtain ⟨hs1, hs2⟩ := hs
        unfold gen_range at hs2
        rw [Nat.mod_eq_of_lt hs1] at hs2
        omega

theorem c5_witness :
    waitDraw exUser2 7 = 0 ∧
    2 ≤ waitDraw exUserWait 7 ∧ waitDraw exUserWait 7 < 5 ∧
    (∃! s, s < 5 - 2 ∧ gen_range s 2 5 = 3) := by
  have h0 := (c5_wait_uniform_range exUser2 7).1 (by rfl)
  have h := (c5_wait_uniform_range exUserWait 7).2 (by decide)
  exact ⟨h0, h.1, h.2.1, h.2.2 3 (by decide) (by decide)⟩

/-- C6 (counterexample): with a drawn wait of 2 seconds and max_wait 5, the
cooperative wait loop performs 3 one-second sleep slices, not the 2 slices
the claim states. -/
theorem c6_counterexample_extra_slice :
    (sleepLoopRun exChannelNil 5 2 true 0).1.count Event.sleep = 3 ∧ (3 : Nat) ≠ 2 :=
  ⟨by rfl, by decide⟩

/-- C6 (amended): when max_wait > 0 and no EXIT arrives at any drain of the
wait, the cooperative wait loop performs exactly wait + 1 one-second sleep
slices (one more than the drawn wait, since the exit test slept > wait runs
after each increment) before resuming with the next steady task. -/
theorem c6_wait_plus_one_slices (ch : Channel) (mw wt dp : Nat) (hmw : 0 < mw)
    (hch : ∀ d, dp ≤ d → d ≤ dp + wt → GooseUserCommand.EXIT ∉ ch d) :
    (sleepLoopRun ch mw wt true dp).1.count Event.sleep = wt + 1 ∧
    (sleepLoopRun ch mw wt true dp).2.1 = true := by
  have h := sleepLoop_count ch mw wt hmw wt 0 dp (by omega)
    (fun d h1 h2 => hch d h1 (by omega))
  exact ⟨h.1, h.2.1⟩

theorem c6_witness :
    (sleepLoopRun exChannelNil 5 2 true 0).1.count Event.sleep = 2 + 1 ∧
    (sleepLoopRun exChannelNil 5 2 true 0).2.1 = true :=
  c6_wait_plus_one_slices exChannelNil 5 2 0 (by decide)
    (fun d h1 h2 => List.not_mem_nil _)

/-- C8 (counterexample): in the concrete completed run started at
(bucket_index, position_in_bucket) = (0, 0), the first steady task executes
from bucket 0 before any shuffle of bucket 0 has been applied, refuting the
claim that every bucket, including the first one entered, is shuffled before
any of its tasks execute. -/
theorem c8_counterexample_first_bucket_unshuffled :
    ((user_main exTaskSet rng0 exChannel3 exUser2 10).map
      (fun r => shuffledBefore [] r.1)) = some false := by
  rfl

/-- C10: commands other than EXIT are ignored: draining a batch without EXIT
leaves thread_continue true, and two channels agreeing on where EXIT occurs
produce identical user_main executions, so a non-EXIT command leaves the
whole run exactly as if it had never been sent. -/
theorem c10_non_exit_commands_ignored :
    (∀ (batch : List GooseUserCommand), GooseUserCommand.EXIT ∉ batch →
      processMessages true batch = true) ∧
    (∀ (ts : GooseTaskSet) (rng : Rng) (c1 c2 : Channel) (u : GooseUser) (fuel : Nat),
      (∀ d, GooseUserCommand.EXIT ∈ c1 d ↔ GooseUserCommand.EXIT ∈ c2 d) →
      user_main ts rng c1 u fuel = user_main ts rng c2 u fuel) :=
  ⟨fun batch h => processMessages_no_exit true batch h,
   fun ts rng c1 c2 u fuel h => user_main_congr c1 c2 h ts rng u fuel⟩

theorem c10_witness :
    processMessages true [GooseUserCommand.other 7] = true ∧
    user_main exTaskSet rng0 exChannelNoise exUser2 10 =
      user_main exTaskSet rng0 exChannel3 exUser2 10 := by
  constructor
  · exact c10_non_exit_commands_ignored.1 [GooseUserCommand.other 7] (by decide)
  · refine c10_non_exit_commands_ignored.2 exTaskSet rng0 exChannelNoise exChannel3
      exUser2 10 ?_
    intro d
    by_cases hd : d = 2 <;> simp [exChannelNoise, exChannel3, hd]

theorem coreOf_weighted_tasks {x y : GooseUser} (h : coreOf x = coreOf y) :
    x.weighted_tasks = y.weighted_tasks := congrArg (fun t => t.2.1) h

theorem coreOf_on_stop {x y : GooseUser} (h : coreOf x = coreOf y) :
    x.weighted_on_stop_tasks = y.weighted_on_stop_tasks :=
  congrArg (fun t => t.2.2.1) h

theorem coreOf_bucket {x y : GooseUser} (h : coreOf x = coreOf y) :
    x.weighted_bucket = y.weighted_bucket := congrArg (fun t => t.2.2.2.1) h

theorem hooksOf_on_stop {x y : GooseUser} (h : hooksOf x = hooksOf y) :
    x.weighted_on_stop_tasks = y.weighted_on_stop_tasks :=
  congrArg (fun t => t.2.1) h

/-- C4: every completed execution of user_main decomposes as on-start events,
then steady-loop events, then on-stop events — every on-start invocation
precedes every steady invocation and every on-stop invocation follows every
steady invocation — and the on-stop invocations realise each entry of the
user's on-stop plan exactly once, whatever commands (including EXIT during
steady state) arrived. -/
theorem c4_phase_ordering_and_on_stop_once (ts : GooseTaskSet) (rng : Rng)
    (ch : Channel) (u : GooseUser) (fuel : Nat) (tr : List Event) (st' : LoopSt)
    (hok : userOk ts u = true)
    (h : user_main ts rng ch u fuel = some (tr, st')) :
    ∃ e1 e2 e3, tr = e1 ++ e2 ++ e3 ∧
      e1.all isOnStartEv = true ∧ e2.all isLoopEv = true ∧ e3.all isOnStopEv = true ∧
      (∀ i, (e3.filterMap onStopIdx).count i =
        (u.weighted_on_stop_tasks.flatten).count i) := by
  obtain ⟨e2, stMid, hsteady, htr, _⟩ := user_main_eq ts rng ch u fuel tr st' h
  obtain ⟨hall, hhooks, _, _, _⟩ := steadyLoop_props ts rng ch fuel _ e2 stMid hsteady
  refine ⟨_, e2, _, htr, ?_, hall, ?_, ?_⟩
  · exact runHookTasks_all ts rng Event.onStart isOnStartEv (fun i r => rfl) _ u 0
  · exact runHookTasks_all ts rng Event.onStop isOnStopEv (fun i r => rfl) _ _ _
  · intro i
    rw [runHookTasks_count ts rng Event.onStop onStopIdx (fun i r => rfl) _ _ _ i]
    have h2 : stMid.user.weighted_on_stop_tasks =
        (runHookTasks ts rng Event.onStart u.weighted_on_start_tasks u 0).2.1.weighted_on_stop_tasks :=
      hooksOf_on_stop hhooks
    rw [h2,
      coreOf_on_stop (runHookTasks_core ts rng Event.onStart u.weighted_on_start_tasks u 0)]

theorem c4_witness :
    ∃ e1 e2 e3, exTrFull = e1 ++ e2 ++ e3 ∧
      e1.all isOnStartEv = true ∧ e2.all isLoopEv = true ∧ e3.all isOnStopEv = true ∧
      (∀ i, (e3.filterMap onStopIdx).count i =
        (exUserFull.weighted_on_stop_tasks.flatten).count i) :=
  c4_phase_ordering_and_on_stop_once exTaskSet rng0 exChannel3 exUserFull 10 exTrFull
    exStFull (by decide) (by rfl)

/-- C3: a user whose steady plan is empty yields a completed execution for
every fuel: the on-start buckets run, no steady task runs, the on-stop
buckets run, and user_main returns without error. -/
theorem c3_empty_steady_runs_hooks_and_returns (ts : GooseTaskSet) (rng : Rng)
    (ch : Channel) (u : GooseUser) (fuel : Nat) (hok : userOk ts u = true)
    (hempty : u.weighted_tasks = []) :
    (user_main ts rng ch u fuel).isSome = true ∧
    (∀ tr st', user_main ts rng ch u fuel = some (tr, st') →
      tr.filter isSteadyEv = [] ∧
      ∃ e1 e3, tr = e1 ++ e3 ∧ e1.all isOnStartEv = true ∧ e3.all isOnStopEv = true ∧
        (∀ i, (e1.filterMap onStartIdx).count i =
          (u.weighted_on_start_tasks.flatten).count i) ∧
        (∀ i, (e3.filterMap onStopIdx).count i =
          (u.weighted_on_stop_tasks.flatten).count i)) := by
  have hwt : (runHookTasks ts rng Event.onStart u.weighted_on_start_tasks u 0).2.1.weighted_tasks
      = u.weighted_tasks :=
    coreOf_weighted_tasks (runHookTasks_core ts rng Event.onStart u.weighted_on_start_tasks u 0)
  have htc : (initSt (runHookTasks ts rng Event.onStart u.weighted_on_start_tasks u 0).2.1
      (runHookTasks ts rng Event.onStart u.weighted_on_start_tasks u 0).2.2).thread_continue
      = false := by
    simp [initSt, hwt, hempty]
  have hstop := steadyLoop_stop ts rng ch fuel _ htc
  constructor
  · simp only [user_main, hstop]
    rfl
  · intro tr st' h
    obtain ⟨e2, stMid, hsteady, htr, _⟩ := user_main_eq ts rng ch u fuel tr st' h
    rw [hstop] at hsteady
    have hfst : ([] : List Event) = e2 := congrArg Prod.fst (Option.some.inj hsteady)
    have hsnd := congrArg Prod.snd (Option.some.inj hsteady)
    subst hfst
    subst hsnd
    rw [List.append_nil] at htr
    have hA : (runHookTasks ts rng Event.onStart u.weighted_on_start_tasks u 0).1.all
        (fun e => isOnStartEv e || isOnStopEv e) = true :=
      runHookTasks_all ts rng Event.onStart _ (fun i r => rfl) _ u 0
    have hstop_plan : (initSt (runHookTasks ts rng Event.onStart u.weighted_on_start_tasks u 0).2.1
        (runHookTasks ts rng Event.onStart u.weighted_on_start_tasks u 0).2.2).user.weighted_on_stop_tasks
        = u.weighted_on_stop_tasks :=
      coreOf_on_stop (runHookTasks_core ts rng Event.onStart u.weighted_on_start_tasks u 0)
    have hB : (runHookTasks ts rng Event.onStop
        (initSt (runHookTasks ts rng Event.onStart u.weighted_on_start_tasks u 0).2.1
          (runHookTasks ts rng Event.onStart u.weighted_on_start_tasks u 0).2.2).user.weighted_on_stop_tasks
        (initSt (runHookTasks ts rng Event.onStart u.weighted_on_start_tasks u 0).2.1
          (runHookTasks ts rng Event.onStart u.weighted_on_start_tasks u 0).2.2).user
        (initSt (runHookTasks ts rng Event.onStart u.weighted_on_start_tasks u 0).2.1
          (runHookTasks ts rng Event.onStart u.weighted_on_start_tasks u 0).2.2).rp).1.all
        (fun e => isOnStartEv e || isOnStopEv e) = true :=
      runHookTasks_all ts rng Event.onStop _ (fun i r => rfl) _ _ _
    constructor
    · rw [htr, List.filter_append, (hookKind_no_loop _ hA).1, (hookKind_no_loop _ hB).1,
        List.append_nil]
    · refine ⟨_, _, htr, ?_, ?_, ?_, ?_⟩
      · exact runHookTasks_all ts rng Event.onStart isOnStartEv (fun i r => rfl) _ u 0
      · exact runHookTasks_all ts rng Event.onStop isOnStopEv (fun i r => rfl) _ _ _
      · intro i
        rw [runHookTasks_count ts rng Event.onStart onStartIdx (fun i r => rfl) _ _ _ i]
      · intro i
        rw [runHookTasks_count ts rng Event.onStop onStopIdx (fun i r => rfl) _ _ _ i,
          hstop_plan]

theorem c3_witness :
    (user_main exTaskSetName rng0 exChannelNil exUserHooks 5).isSome = true ∧
    (∀ tr st', user_main exTaskSetName rng0 exChannelNil exUserHooks 5 = some (tr, st') →
      tr.filter isSteadyEv = [] ∧
      ∃ e1 e3, tr = e1 ++ e3 ∧ e1.all isOnStartEv = true ∧ e3.all isOnStopEv = true ∧
        (∀ i, (e1.filterMap onStartIdx).count i =
          (exUserHooks.weighted_on_start_tasks.flatten).count i) ∧
        (∀ i, (e3.filterMap onStopIdx).count i =
          (exUserHooks.weighted_on_stop_tasks.flatten).count i)) :=
  c3_empty_steady_runs_hooks_and_returns exTaskSetName rng0 exChannelNil exUserHooks 5
    (by decide) (by rfl)

/-- C7: an EXIT on the channel is honored the moment the wait loop drains it:
from any wait state (any slept count, fuel and drain cursor) a drain seeing
EXIT ends the wait at once with thread_continue cleared and no further sleep
slice; a wait whose k-th drain sees EXIT sleeps exactly the k slices before
that drain and none after; the iteration's continue flag is exactly the
wait's returned flag; from any loop state whose iteration's wait clears the
flag, the steady loop ends with that iteration, having invoked exactly its
one steady task and no further ones; and every completed run's trace ends
with the on-stop suffix realizing the on-stop plan before returning. -/
theorem c7_exit_stops_promptly :
    (∀ (ch : Channel) (mw wt fuel : Nat) (tc : Bool) (slept dp : Nat),
      GooseUserCommand.EXIT ∈ ch dp →
      sleepLoop ch mw wt fuel tc slept dp = ([Event.drain], false, dp + 1)) ∧
    (∀ (ch : Channel) (mw wt dp k : Nat), 0 < mw → k ≤ wt →
      (∀ d, dp ≤ d → d < dp + k → GooseUserCommand.EXIT ∉ ch d) →
      GooseUserCommand.EXIT ∈ ch (dp + k) →
      (sleepLoopRun ch mw wt true dp).1.count Event.sleep = k ∧
        (sleepLoopRun ch mw wt true dp).2.1 = false ∧
        (sleepLoopRun ch mw wt true dp).2.2 = dp + k + 1) ∧
    (∀ (ts : GooseTaskSet) (rng : Rng) (ch : Channel) (st : LoopSt),
      (steadyStep ts rng ch st).2.thread_continue =
        (sleepLoopRun ch (stepNamedUser ts rng st).max_wait (stepWait ts rng st)
          st.thread_continue st.dp).2.1) ∧
    (∀ (ts : GooseTaskSet) (rng : Rng) (ch : Channel) (fuel : Nat) (st : LoopSt),
      st.thread_continue = false → steadyLoop ts rng ch fuel st = some ([], st)) ∧
    (∀ (ts : GooseTaskSet) (rng : Rng) (ch : Channel) (fuel : Nat) (st : LoopSt),
      st.thread_continue = true →
      (steadyStep ts rng ch st).2.thread_continue = false →
      steadyLoop ts rng ch (fuel + 1) st =
        some ((steadyStep ts rng ch st).1, (steadyStep ts rng ch st).2) ∧
      ((steadyStep ts rng ch st).1.filter isSteadyEv).length = 1) ∧
    (∀ (ts : GooseTaskSet) (rng : Rng) (ch : Channel) (u : GooseUser) (fuel : Nat)
      (tr : List Event) (st' : LoopSt), userOk ts u = true →
      user_main ts rng ch u fuel = some (tr, st') →
      ∃ e12 e3, tr = e12 ++ e3 ∧ e3.all isOnStopEv = true ∧
        (∀ i, (e3.filterMap onStopIdx).count i =
          (u.weighted_on_stop_tasks.flatten).count i)) := by
  refine ⟨fun ch mw wt fuel tc slept dp hx =>
      sleepLoop_exit_mid ch mw wt fuel tc slept dp hx,
    fun ch mw wt dp k hmw hk hwin hex =>
      sleepLoop_exit_at ch mw wt hmw k wt 0 dp (by omega) hk hwin hex,
    fun ts rng ch st => rfl,
    fun ts rng ch fuel st hst => steadyLoop_stop ts rng ch fuel st hst,
    ?_, ?_⟩
  · intro ts rng ch fuel st h1 h2
    constructor
    · rw [steadyLoop_succ, if_pos (by simpa using h1), steadyLoop_stop ts rng ch fuel _ h2]
      simp
    · obtain ⟨evs0, idx, req, wevs, hsh, hcase, hwall, _, _⟩ := steadyStep_shape ts rng ch st
      rw [hsh, List.filter_append]
      have he0 : evs0.filter isSteadyEv = [] := by
        rcases hcase with ⟨he, _⟩ | he <;> rw [he] <;> rfl
      rw [he0, List.nil_append]
      simp [List.filter_cons, isSteadyEv, waitEvents_no_steady wevs hwall]
  · intro ts rng ch u fuel tr st' hok h
    obtain ⟨e2, stMid, hsteady, htr, _⟩ := user_main_eq ts rng ch u fuel tr st' h
    obtain ⟨_, hhooks, _, _, _⟩ := steadyLoop_props ts rng ch fuel _ e2 stMid hsteady
    refine ⟨_, _, htr, ?_, ?_⟩
    · exact runHookTasks_all ts rng Event.onStop isOnStopEv (fun i r => rfl) _ _ _
    · intro i
      rw [runHookTasks_count ts rng Event.onStop onStopIdx (fun i r => rfl) _ _ _ i]
      have h2 : stMid.user.weighted_on_stop_tasks =
          (runHookTasks ts rng Event.onStart u.weighted_on_start_tasks u 0).2.1.weighted_on_stop_tasks :=
        hooksOf_on_stop hhooks
      rw [h2,
        coreOf_on_stop (runHookTasks_core ts rng Event.onStart u.weighted_on_start_tasks u 0)]

theorem c7_witness :
    sleepLoop exChannelExit 3 5 2 true 4 7 = ([Event.drain], false, 7 + 1) ∧
    ((sleepLoopRun exChannel1 5 3 true 0).1.count Event.sleep = 1 ∧
      (sleepLoopRun exChannel1 5 3 true 0).2.1 = false ∧
      (sleepLoopRun exChannel1 5 3 true 0).2.2 = 0 + 1 + 1) ∧
    ((steadyStep exTaskSet rng0 exChannel3 exStStop).2.thread_continue =
      (sleepLoopRun exChannel3 (stepNamedUser exTaskSet rng0 exStStop).max_wait
        (stepWait exTaskSet rng0 exStStop) exStStop.thread_continue exStStop.dp).2.1) ∧
    steadyLoop exTaskSet rng0 exChannelNil 5 exStStop = some ([], exStStop) ∧
    (steadyLoop exTaskSet rng0 exChannelExit (4 + 1) (initSt exUser2 0) =
        some ((steadyStep exTaskSet rng0 exChannelExit (initSt exUser2 0)).1,
          (steadyStep exTaskSet rng0 exChannelExit (initSt exUser2 0)).2) ∧
      ((steadyStep exTaskSet rng0 exChannelExit
        (initSt exUser2 0)).1.filter isSteadyEv).length = 1) ∧
    (∃ e12 e3, exTrFull = e12 ++ e3 ∧ e3.all isOnStopEv = true ∧
      (∀ i, (e3.filterMap onStopIdx).count i =
        (exUserFull.weighted_on_stop_tasks.flatten).count i)) :=
  ⟨c7_exit_stops_promptly.1 exChannelExit 3 5 2 true 4 7 (by decide),
   c7_exit_stops_promptly.2.1 exChannel1 5 3 0 1 (by decide) (by decide)
     (by intro d h1 h2; have hd : d = 0 := (by omega); subst hd; decide) (by decide),
   c7_exit_stops_promptly.2.2.1 exTaskSet rng0 exChannel3 exStStop,
   c7_exit_stops_promptly.2.2.2.1 exTaskSet rng0 exChannelNil 5 exStStop rfl,
   c7_exit_stops_promptly.2.2.2.2.1 exTaskSet rng0 exChannelExit 4 (initSt exUser2 0)
     (by decide) (by decide),
   c7_exit_stops_promptly.2.2.2.2.2 exTaskSet rng0 exChannel3 exUserFull 10 exTrFull
     exStFull (by decide) (by rfl)⟩

/-- C8 (amended): in every completed run every steady invocation comes from
the most recently shuffled bucket — each bucket entered through the
bucket-advance branch is shuffled at that entry before any of its tasks
execute, and a bucket entered again later needs a fresh shuffle — except
that before any advance the invocations come from the initial bucket, which
executes its stored task order from the stored position, unshuffled. -/
theorem c8_shuffle_on_advance (ts : GooseTaskSet) (rng : Rng) (ch : Channel)
    (u : GooseUser) (fuel : Nat) (tr : List Event) (st' : LoopSt)
    (hok : userOk ts u = true)
    (h : user_main ts rng ch u fuel = some (tr, st')) :
    perEntryShuffle u.weighted_bucket none tr = true ∧
    (∃ n, steadyIdxs (beforeShuffle tr) =
      ((u.weighted_tasks.getD u.weighted_bucket []).drop
        u.weighted_bucket_position).take n) := by
  obtain ⟨e2, stMid, hsteady, htr, _⟩ := user_main_eq ts rng ch u fuel tr st' h
  have hA : (runHookTasks ts rng Event.onStart u.weighted_on_start_tasks u 0).1.all
      (fun e => isOnStartEv e || isOnStopEv e) = true :=
    runHookTasks_all ts rng Event.onStart _ (fun i r => rfl) _ u 0
  have hB : (runHookTasks ts rng Event.onStop stMid.user.weighted_on_stop_tasks stMid.user
      stMid.rp).1.all (fun e => isOnStartEv e || isOnStopEv e) = true :=
    runHookTasks_all ts rng Event.onStop _ (fun i r => rfl) _ _ _
  have hbk : (initSt (runHookTasks ts rng Event.onStart u.weighted_on_start_tasks u 0).2.1
      (runHookTasks ts rng Event.onStart u.weighted_on_start_tasks u 0).2.2).bucket =
      u.weighted_bucket :=
    coreOf_bucket (runHookTasks_core ts rng Event.onStart u.weighted_on_start_tasks u 0)
  constructor
  · have h1 := hookKindEvents_pes u.weighted_bucket _ hA none
    have hmid := steadyLoop_perEntry ts rng ch u.weighted_bucket fuel _ e2 stMid none
      (by simpa using hbk) hsteady
    have h3 := (hookKindEvents_pes u.weighted_bucket _ hB
      (curAfter none
        ((runHookTasks ts rng Event.onStart u.weighted_on_start_tasks u 0).1 ++ e2))).1
    rw [htr, perEntryShuffle_append, perEntryShuffle_append, h1.1, h1.2, hmid, h3]
    rfl
  · have hBstop : (runHookTasks ts rng Event.onStop stMid.user.weighted_on_stop_tasks
        stMid.user stMid.rp).1.all isOnStopEv = true :=
      runHookTasks_all ts rng Event.onStop isOnStopEv (fun i r => rfl) _ _ _
    obtain ⟨n, hn⟩ := steadyLoop_storedOrder ts rng ch fuel _ e2 stMid hsteady
    have hw : (initSt (runHookTasks ts rng Event.onStart u.weighted_on_start_tasks u 0).2.1
        (runHookTasks ts rng Event.onStart u.weighted_on_start_tasks u 0).2.2).user.weighted_tasks
        = u.weighted_tasks :=
      coreOf_weighted_tasks (runHookTasks_core ts rng Event.onStart u.weighted_on_start_tasks u 0)
    have hp : (initSt (runHookTasks ts rng Event.onStart u.weighted_on_start_tasks u 0).2.1
        (runHookTasks ts rng Event.onStart u.weighted_on_start_tasks u 0).2.2).pos
        = u.weighted_bucket_position :=
      coreOf_position (runHookTasks_core ts rng Event.onStart u.weighted_on_start_tasks u 0)
    rw [hw, hbk, hp] at hn
    refine ⟨n, ?_⟩
    rw [htr, steadyIdxs_beforeShuffle_stop_append _ _ hBstop,
      beforeShuffle_hook_append _ _ hA, steadyIdxs_append, steadyIdxs_hook _ hA,
      List.nil_append, hn]

theorem c8_witness :
    perEntryShuffle exUserFull.weighted_bucket none exTrFull = true ∧
    (∃ n, steadyIdxs (beforeShuffle exTrFull) =
      ((exUserFull.weighted_tasks.getD exUserFull.weighted_bucket []).drop
        exUserFull.weighted_bucket_position).take n) :=
  c8_shuffle_on_advance exTaskSet rng0 exChannel3 exUserFull 10 exTrFull exStFull
    (by decide) (by rfl)

/-- C9: in every completed run the trace never shows two steady invocations
without a channel drain between them — the wait loop body drains the channel
before deciding whether to sleep, even when max_wait = 0 — so an EXIT sent
between tasks is seen before the next task starts. -/
theorem c9_drain_between_steady_tasks (ts : GooseTaskSet) (rng : Rng) (ch : Channel)
    (u : GooseUser) (fuel : Nat) (tr : List Event) (st' : LoopSt)
    (hok : userOk ts u = true)
    (h : user_main ts rng ch u fuel = some (tr, st')) :
    noAdjSteady false tr = true := by
  obtain ⟨e2, stMid, hsteady, htr, _⟩ := user_main_eq ts rng ch u fuel tr st' h
  obtain ⟨_, _, hnas, hflag, _⟩ := steadyLoop_props ts rng ch fuel _ e2 stMid hsteady
  have hA : (runHookTasks ts rng Event.onStart u.weighted_on_start_tasks u 0).1.all
      (fun e => isOnStartEv e || isOnStopEv e) = true :=
    runHookTasks_all ts rng Event.onStart _ (fun i r => rfl) _ u 0
  have hB : (runHookTasks ts rng Event.onStop stMid.user.weighted_on_stop_tasks stMid.user
      stMid.rp).1.all (fun e => isOnStartEv e || isOnStopEv e) = true :=
    runHookTasks_all ts rng Event.onStop _ (fun i r => rfl) _ _ _
  have h1 := hookKindEvents_nas _ hA false
  have h2 := hookKindEvents_nas _ hB false
  rw [htr, noAdjSteady_append, noAdjSteady_append, steadyFlag_append, h1.2, hflag,
    hnas, h1.1]
  simpa using h2.1

theorem c9_witness : noAdjSteady false exTrFull = true :=
  c9_drain_between_steady_tasks exTaskSet rng0 exChannel3 exUserFull 10 exTrFull exStFull
    (by decide) (by rfl)

end Goose
